import Mathlib

/-!
Verification of the TidyLibrary scan-and-plan engine and move executor
(`src/server.js`) against its natural-language specification.

The JavaScript source is shallowly embedded: strings are Lean `String`s
(operated on through their `List Char` data), filesystem paths are lists of
path segments (so `path.join`, `path.dirname` and `path.relative` on the
slash-free segment names produced by `readdir` become list operations), and
the filesystem itself is a flat record of regular files (path plus content)
and directories.  The nondeterministic outcomes of the fallible filesystem
syscalls (`mkdir`, `rename`, `rmdir`) are supplied by an explicit oracle
environment, indexed by the position of the call in the executor's loops.
-/

namespace TidyLib

/-! ### JavaScript string primitives -/

/-- The whitespace code points matched by the JavaScript regexp class `\s`
and trimmed by `String.prototype.trim`. -/
def isJsWs (c : Char) : Bool :=
  c = ' ' || c = '\t' || c = '\n' || c.val = 11 || c.val = 12 || c = '\r' ||
  c.val = 0xa0 || c.val = 0x1680 || (0x2000 ≤ c.val && c.val ≤ 0x200a) ||
  c.val = 0x2028 || c.val = 0x2029 || c.val = 0x202f || c.val = 0x205f ||
  c.val = 0x3000 || c.val = 0xfeff

/-- Remove leading and trailing whitespace from a character list
(JavaScript `String.prototype.trim`). -/
def jsTrimList (l : List Char) : List Char :=
  ((l.dropWhile isJsWs).reverse.dropWhile isJsWs).reverse

/-- JavaScript `String.prototype.trim`. -/
def jsTrim (s : String) : String :=
  ⟨jsTrimList s.data⟩

/-- Code-unit comparison of character lists: the order JavaScript uses for
the `<` and `>` operators on strings. -/
def charListLt : List Char → List Char → Bool
  | [], [] => false
  | [], _ :: _ => true
  | _ :: _, [] => false
  | a :: as, b :: bs =>
    if a.val < b.val then true
    else if b.val < a.val then false
    else charListLt as bs

/-- JavaScript string `<`. -/
def jsLt (a b : String) : Bool := charListLt a.data b.data

/-- JavaScript `String.prototype.toLowerCase()` (the names involved are
ASCII, where `Char.toLower` agrees with it). -/
def jsToLower (s : String) : String :=
  ⟨s.data.map Char.toLower⟩

/-- JavaScript `String.prototype.includes(c)` for one character. -/
def jsContainsChar (s : String) (c : Char) : Bool :=
  s.data.contains c

/-- JavaScript `String.prototype.padStart(n, c)`. -/
def padStart (s : String) (n : Nat) (c : Char) : String :=
  ⟨List.replicate (n - s.data.length) c ++ s.data⟩

/-- Predicate for take/drop up to a separator character. -/
def isNotChar (sep c : Char) : Bool := c != sep

/-- Worker for `jsSplitChar`; `acc` holds the current chunk reversed. -/
def splitCharAux (sep : Char) : List Char → List Char → List (List Char)
  | [], acc => [acc.reverse]
  | c :: rest, acc =>
    if c = sep then acc.reverse :: splitCharAux sep rest []
    else splitCharAux sep rest (c :: acc)

/-- JavaScript `String.prototype.split(sep)` for a single-character
separator: `"a#b".split("#") = ["a","b"]`, `"#".split("#") = ["",""]`,
`"".split("#") = [""]`. -/
def jsSplitChar (sep : Char) (s : String) : List String :=
  (splitCharAux sep s.data []).map (fun l => ⟨l⟩)

/-- Join a list of strings with a separator (JavaScript `Array.prototype.join`). -/
def joinSep (sep : String) : List String → String
  | [] => ""
  | [x] => x
  | x :: xs => x ++ sep ++ joinSep sep xs

/-- Split a character list into alternating runs of non-digits and digits,
as JavaScript `s.split(/(\d+)/)` does with its capture group: the result
alternates (possibly empty) non-digit chunks with maximal digit runs,
starting and ending with a non-digit chunk.  Each step consumes at least
one character, so the fuel `l.length + 1` supplied by `splitDigitRuns`
always suffices; structural recursion on the fuel keeps the definition
computable by the kernel. -/
def splitDigitRunsAux : Nat → List Char → List (List Char)
  | 0, _ => []
  | fuel + 1, l =>
    let t := l.takeWhile (fun c => !c.isDigit)
    let r1 := l.dropWhile (fun c => !c.isDigit)
    let d := r1.takeWhile Char.isDigit
    let r2 := r1.dropWhile Char.isDigit
    if d.isEmpty then [t] else t :: d :: splitDigitRunsAux fuel r2

/-- JavaScript `s.split(/(\d+)/)` as used by `naturalSortKey`. -/
def splitDigitRuns (s : String) : List String :=
  (splitDigitRunsAux (s.data.length + 1) s.data).map (fun l => ⟨l⟩)

/-! ### JavaScript numeric-string predicates (isNaN / parseInt) -/

def isHexDigitB (c : Char) : Bool :=
  c.isDigit || ('a' ≤ c && c ≤ 'f') || ('A' ≤ c && c ≤ 'F')

def isOctDigitB (c : Char) : Bool := '0' ≤ c && c ≤ '7'

def isBinDigitB (c : Char) : Bool := c = '0' || c = '1'

/-- Nonempty run of characters all satisfying `p`. -/
def allNonempty (p : Char → Bool) (l : List Char) : Bool :=
  !l.isEmpty && l.all p

/-- Recognize a JavaScript exponent suffix: `e`/`E`, optional sign, digits. -/
def expTail : List Char → Bool
  | c :: rest =>
    (c = 'e' || c = 'E') &&
      (match rest with
       | s :: ds => if s = '+' || s = '-' then allNonempty Char.isDigit ds
                    else allNonempty Char.isDigit (s :: ds)
       | [] => false)
  | [] => false

/-- Recognize an unsigned JavaScript decimal literal
(`digits`, `digits.digits?`, `.digits`, each with optional exponent). -/
def decBody (l : List Char) : Bool :=
  let ip := l.takeWhile Char.isDigit
  let rest := l.dropWhile Char.isDigit
  match rest with
  | [] => !ip.isEmpty
  | '.' :: rest2 =>
    let fp := rest2.takeWhile Char.isDigit
    let rest3 := rest2.dropWhile Char.isDigit
    (!ip.isEmpty || !fp.isEmpty) && (rest3.isEmpty || expTail rest3)
  | _ => !ip.isEmpty && expTail rest

/-- Recognize what may follow an optional sign in `Number(s)`:
`Infinity` or a decimal literal. -/
def signedMain (l : List Char) : Bool :=
  l = "Infinity".data || decBody l

/-- Whether `Number(s)` is not NaN for an already-trimmed character list:
the empty string converts to 0; otherwise a signed decimal/`Infinity`
literal or an unsigned `0x`/`0o`/`0b` radix literal. -/
def jsIsNumericCore : List Char → Bool
  | [] => true
  | '+' :: r => signedMain r
  | '-' :: r => signedMain r
  | '0' :: c :: r =>
    if c = 'x' || c = 'X' then allNonempty isHexDigitB r
    else if c = 'o' || c = 'O' then allNonempty isOctDigitB r
    else if c = 'b' || c = 'B' then allNonempty isBinDigitB r
    else decBody ('0' :: c :: r)
  | l => signedMain l

/-- `!isNaN(s)` for a JavaScript string `s` (implicit `Number(s)` coercion). -/
def jsIsNumeric (s : String) : Bool :=
  jsIsNumericCore (jsTrimList s.data)

/-- Value of a nonempty decimal digit run. -/
def digitsToNat (l : List Char) : Nat :=
  l.foldl (fun a c => a * 10 + (c.toNat - 48)) 0

def hexDigitVal (c : Char) : Nat :=
  if c.isDigit then c.toNat - 48
  else if 'a' ≤ c && c ≤ 'f' then c.toNat - 87
  else c.toNat - 55

def hexDigitsToNat (l : List Char) : Nat :=
  l.foldl (fun a c => a * 16 + hexDigitVal c) 0

/-- JavaScript `parseInt(s)` with no radix argument: trim, optional sign,
`0x` hex prefix or longest decimal-digit prefix; `none` models NaN. -/
def jsParseInt (s : String) : Option Int :=
  let l := jsTrimList s.data
  let sl : Int × List Char :=
    match l with
    | '+' :: r => (1, r)
    | '-' :: r => (-1, r)
    | _ => (1, l)
  match sl.2 with
  | '0' :: c :: r =>
    if c = 'x' || c = 'X' then
      let hs := r.takeWhile isHexDigitB
      if hs.isEmpty then none else some (sl.1 * hexDigitsToNat hs)
    else
      let ds := (('0' :: c :: r).takeWhile Char.isDigit)
      if ds.isEmpty then none else some (sl.1 * digitsToNat ds)
  | l2 =>
    let ds := l2.takeWhile Char.isDigit
    if ds.isEmpty then none else some (sl.1 * digitsToNat ds)

/-! ### Natural sort (server.js lines 14-18 and the audio-file sort) -/

/-- One element of the array produced by `naturalSortKey`: a parsed integer,
a lowercased text chunk, or the NaN that `parseInt` yields on chunks such as
the empty string that `isNaN` lets through. -/
inductive KeyPart where
  | num (n : Int)
  | text (s : String)
  | nan
deriving DecidableEq

/-- `naturalSortKey(s)`: split on digit runs (capture group included) and map
each part to `parseInt(part)` when `isNaN(part)` is false, else to
`part.toLowerCase()`. -/
def naturalSortKey (s : String) : List KeyPart :=
  (splitDigitRuns s).map fun part =>
    if jsIsNumeric part then
      match jsParseInt part with
      | some n => .num n
      | none => .nan
    else .text (jsToLower part)

/-- How JavaScript stringifies one sort-key element when the key array is
coerced to a primitive by `<`. -/
def keyPartToString : KeyPart → String
  | .num n => toString n
  | .text s => s
  | .nan => "NaN"

/-- The string a `naturalSortKey` array coerces to under the JavaScript `<`
and `>` operators (`Array.prototype.toString`: elements joined with ","). -/
def keyToString (k : List KeyPart) : String :=
  joinSep "," (k.map keyPartToString)

/-- The comparator passed to the audio-file sort (server.js lines 185-189):
`aKey < bKey ? -1 : aKey > bKey ? 1 : 0`, where the arrays `aKey`, `bKey`
are compared as their joined strings. -/
def naturalCmp (a b : String) : Int :=
  let ak := keyToString (naturalSortKey a)
  let bk := keyToString (naturalSortKey b)
  if jsLt ak bk then -1 else if jsLt bk ak then 1 else 0

/-- Insert `x` into `l`, placing it before the first element that compares
strictly greater; later elements comparing equal stay in front (stability). -/
def insertCmp (cmp : String → String → Int) (x : String) : List String → List String
  | [] => [x]
  | y :: ys => if cmp x y < 0 then x :: y :: ys else y :: insertCmp cmp x ys

/-- Stable sort by a three-way comparator, modelling
`Array.prototype.sort(comparator)` (stable per the ECMAScript spec). -/
def sortCmp (cmp : String → String → Int) (l : List String) : List String :=
  l.foldl (fun acc x => insertCmp cmp x acc) []

/-! ### Metadata records and cleaning (server.js lines 20-58) -/

/-- A JSON value, as produced by `JSON.parse` of a sidecar metadata file.
Object fields are an association list; records are assumed to have unique
keys, as `JSON.parse` keeps a single binding per key. -/
inductive JsVal where
  | null
  | bool (b : Bool)
  | num (n : Int)
  | str (s : String)
  | arr (elems : List JsVal)
  | obj (fields : List (String × JsVal))

/-- JavaScript `String(value)` for the values `cleanMetadata` stringifies.
Arrays never reach this point (the array case of `cleanMetadata` recurses
into the first element first), so their case is left as the empty string;
whole numbers print as their decimal notation. -/
def jsStringOfVal : JsVal → String
  | .null => "null"
  | .bool true => "true"
  | .bool false => "false"
  | .num n => toString n
  | .str s => s
  | .arr _ => ""
  | .obj _ => "[object Object]"

/-- Drop a leading `[` followed by a quote character, as the regexp
`^\[['"]` removal does. -/
def stripLeadingBracketQuote (l : List Char) : List Char :=
  match l with
  | '[' :: q :: rest => if q.val = 39 || q.val = 34 then rest else l
  | _ => l

/-- Drop a trailing quote character followed by `]`, as the regexp
`['"]\]$` removal does. -/
def stripTrailingQuoteBracket (l : List Char) : List Char :=
  match l.reverse with
  | ']' :: q :: rest => if q.val = 39 || q.val = 34 then rest.reverse else l
  | _ => l

/-- `cleanMetadata(value)` (server.js lines 20-29): null becomes empty,
arrays recurse into their first element, other values are stringified,
truncated at the first comma, stripped of stringified-list artifacts and
trimmed. -/
def cleanMetadata : JsVal → String
  | .null => ""
  | .arr [] => ""
  | .arr (v :: _) => cleanMetadata v
  | v =>
    let s0 := (jsStringOfVal v).data
    let s1 := if s0.contains ',' then s0.takeWhile (fun c => c ≠ ',') else s0
    let s2 := stripTrailingQuoteBracket (stripLeadingBracketQuote s1)
    ⟨jsTrimList s2⟩

/-- Look a key up in a record (first binding; keys are unique). -/
def jlookup (fields : List (String × JsVal)) (k : String) : Option JsVal :=
  (fields.find? (fun p => p.1 = k)).map (fun p => p.2)

/-- One pass of `getMetadataValue`'s key loop over a record: the first
candidate key that is present and non-null wins and its value is cleaned. -/
def firstKeyValue (fields : List (String × JsVal)) (keyNames : List String) : Option String :=
  keyNames.findSome? fun k =>
    match jlookup fields k with
    | some .null => none
    | some v => some (cleanMetadata v)
    | none => none

/-- `getMetadataValue(data, keyNames)` (server.js lines 41-58): try every
candidate key at top level, then inside the `metadata` sub-record
(`data.metadata || {}`, property access on non-objects finding nothing),
falling back to the empty string. -/
def getMetadataValue (data : List (String × JsVal)) (keyNames : List String) : String :=
  match firstKeyValue data keyNames with
  | some s => s
  | none =>
    let meta := match jlookup data "metadata" with
      | some (.obj m) => m
      | _ => []
    match firstKeyValue meta keyNames with
    | some s => s
    | none => ""

/-! ### Filename sanitizer (server.js lines 31-39) -/

/-- The characters `cleanFilename` strips: `< > : " / \ | ? *`
(the quote and backslash written by code point). -/
def invalidChars : List Char :=
  ['<', '>', ':', Char.ofNat 34, '/', Char.ofNat 92, '|', '?', '*']

/-- The per-character removal loop of `cleanFilename`: for each invalid
character a global regexp replace deletes every occurrence. -/
def removeInvalid (l : List Char) : List Char :=
  invalidChars.foldl (fun acc c => acc.filter (fun x => x ≠ c)) l

/-- State machine for `collapseWs`: `inWs` records whether the previous
character was whitespace (in which case further whitespace is dropped). -/
def collapseWsAux (inWs : Bool) : List Char → List Char
  | [] => []
  | c :: rest =>
    if isJsWs c then
      if inWs then collapseWsAux true rest
      else ' ' :: collapseWsAux true rest
    else c :: collapseWsAux false rest

/-- `replace(/\s+/g, ' ')`: collapse every whitespace run to one space. -/
def collapseWs (l : List Char) : List Char :=
  collapseWsAux false l

/-- No two adjacent whitespace characters occur in the list. -/
def noAdjWs : List Char → Bool
  | [] => true
  | [_] => true
  | a :: b :: rest => !(isJsWs a && isJsWs b) && noAdjWs (b :: rest)

/-- `cleanFilename(name)` (server.js lines 31-39): falsy input yields the
empty string; otherwise remove invalid characters, collapse whitespace runs
to single spaces and trim. -/
def cleanFilename (name : String) : String :=
  if name = "" then "" else ⟨jsTrimList (collapseWs (removeInvalid name.data))⟩

/-! ### path.extname (Node path module, posix) -/

/-- Index of the last `.` in a character list, or `none`. -/
def lastDotIdx (l : List Char) : Option Nat :=
  if l.contains '.' then some (l.length - 1 - (l.reverse.findIdx (fun c => c = '.')))
  else none

/-- Node `path.extname` for entry names without path separators (the names
returned by `readdir`): the suffix from the last `.` on, unless that dot is
the first character or the whole name is `..`. -/
def extname (s : String) : String :=
  match lastDotIdx s.data with
  | none => ""
  | some i =>
    if i = 0 then ""
    else if s.data = ['.', '.'] then ""
    else ⟨s.data.drop i⟩

/-- The recognized audio extensions (server.js line 116), matched against
`path.extname(f).toLowerCase()`. -/
def audioExtensionsList : List String :=
  [".mp3", ".m4b", ".m4a", ".flac", ".ogg", ".opus", ".aac"]

/-! ### Series parsing (server.js lines 134-157) -/

/-- Naming configuration: `formatConfig.folderFormat` and
`formatConfig.fileFormat`. -/
structure Config where
  folderFormat : String
  fileFormat : String
deriving DecidableEq

/-- Result of the series block: the normalized series title and book number,
whether `stats.standaloneCount` was incremented, and the value added to the
`stats.series` set (when any). -/
structure SeriesInfo where
  seriesTitle : String
  bookNumber : String
  standalone : Bool
  seriesAdded : Option String
deriving DecidableEq

/-- The series block of the scan handler (server.js lines 134-157): split at
`#` when present, sanitize the part before, trim the part between the first
and second `#`, then zero-pad its integer part when it contains a dot,
zero-pad it when `isNaN` is false, and keep it as-is otherwise. -/
def parseSeriesField (seriesField : String) : SeriesInfo :=
  if seriesField ≠ "" then
    if jsContainsChar seriesField '#' then
      let parts := jsSplitChar '#' seriesField
      let seriesTitle := cleanFilename (parts.headD "")
      let rawNum := jsTrim (parts[1]?.getD "")
      let bookNumber :=
        if jsContainsChar rawNum '.' then
          let nParts := jsSplitChar '.' rawNum
          padStart (nParts.headD "") 2 '0' ++ "." ++ nParts[1]?.getD ""
        else if jsIsNumeric rawNum then padStart rawNum 2 '0'
        else rawNum
      ⟨seriesTitle, bookNumber, false, some seriesTitle⟩
    else
      let st := cleanFilename seriesField
      ⟨st, "", false, some st⟩
  else ⟨"", "", true, none⟩

/-! ### Filesystem model -/

/-- Content of a regular file: a parsed sidecar metadata record (for files
that `JSON.parse` accepts) or opaque bytes. -/
inductive Cont where
  | json (fields : List (String × JsVal))
  | blob (tag : String)

/-- A filesystem: regular files (path segments plus content) and
directories.  Item directories are assumed to contain regular files only. -/
structure FS where
  files : List (List String × Cont)
  dirs : List (List String)

/-- The name under which path `p` appears in a listing of directory `d`
(`none` when `p` is not strictly below `d`). -/
def childOf (d p : List String) : Option String :=
  if d.isPrefixOf p && d.length < p.length then (p.drop d.length).head? else none

/-- Worker for `dedupKeepFirst`: skip names already seen. -/
def dedupKeepFirstAux (seen : List String) : List String → List String
  | [] => []
  | x :: xs =>
    if seen.contains x then dedupKeepFirstAux seen xs
    else x :: dedupKeepFirstAux (seen ++ [x]) xs

/-- Drop later duplicates, keeping the first occurrence of each name. -/
def dedupKeepFirst (l : List String) : List String :=
  dedupKeepFirstAux [] l

/-- `fs.readdir(d)`: the entry names of directory `d`. -/
def entryNames (fs : FS) (d : List String) : List String :=
  dedupKeepFirst ((fs.files.map (fun e => e.1) ++ fs.dirs).filterMap (childOf d))

/-- `entry.isDirectory()` for the path `p = d ++ [name]` of an entry. -/
def isDirPath (fs : FS) (p : List String) : Bool :=
  fs.dirs.contains p ||
  fs.files.any (fun e => p.isPrefixOf e.1 && p.length < e.1.length) ||
  fs.dirs.any (fun q => p.isPrefixOf q && p.length < q.length)

/-- `findMetadataFiles` (server.js lines 60-78): depth-first walk collecting
every `metadata.json` path.  The walk recurses along the finite directory
tree; `fuel` bounds the recursion depth and is taken at least the depth of
the tree wherever the walk is used. -/
def findMetadataFiles (fs : FS) : Nat → List String → List (List String)
  | 0, _ => []
  | fuel + 1, d =>
    (entryNames fs d).foldl
      (fun results n =>
        if isDirPath fs (d ++ [n]) then results ++ findMetadataFiles fs fuel (d ++ [n])
        else if n = "metadata.json" then results ++ [d ++ [n]]
        else results)
      []

/-- Content of the regular file at `p`, if any. -/
def lookupFile (fs : FS) (p : List String) : Option Cont :=
  (fs.files.find? (fun e => e.1 = p)).map (fun e => e.2)

/-! ### Per-item planning (scan handler, server.js lines 118-251) -/

/-- One planned file transition (an element of `movePlan`). -/
structure FileMove where
  oldName : String
  newName : String
  oldPath : List String
  type : String
deriving DecidableEq

/-- One entry of the `plannedMoves` array returned by scan. -/
structure PlannedMove where
  title : String
  author : String
  oldPath : List String
  newPath : List String
  movePlan : List FileMove
  bookDir : List String
  targetDir : List String
deriving DecidableEq

/-- All values the scan handler derives for one item, including those used
only for statistics. -/
structure ItemScan where
  author : String
  bookTitle : String
  narrator : String
  seriesField : String
  seriesInfo : SeriesInfo
  targetPath : List String
  bookDir : List String
  movePlan : List FileMove
  hasChanges : Bool
deriving DecidableEq

/-- JavaScript `x || dflt` for strings: the empty string is falsy. -/
def orDefault (s dflt : String) : String :=
  if s = "" then dflt else s

/-- The audio filename derivation (server.js lines 195-211), before the
final `cleanFilename` pass; `i` is the 0-based position in the sorted
audio list. -/
def deriveNewName (cfg : Config) (cleanAuthor seriesTitle bookNumber cleanTitle : String)
    (numAudio i : Nat) (audioFile : String) : String :=
  if cfg.fileFormat = "full-details" then
    let nameParts :=
      [cleanAuthor] ++
      (if seriesTitle ≠ "" then [jsTrim (seriesTitle ++ " " ++ bookNumber)] else []) ++
      [cleanTitle]
    let baseName := joinSep " - " (nameParts.filter (fun p => p ≠ ""))
    let ext := extname audioFile
    baseName ++ (if numAudio > 1 then " - " ++ padStart (toString (i + 1)) 2 '0' else "") ++ ext
  else if cfg.fileFormat = "title-only" then
    let ext := extname audioFile
    cleanTitle ++ (if numAudio > 1 then " - " ++ padStart (toString (i + 1)) 2 '0' else "") ++ ext
  else audioFile

/-- `path.relative(libraryPath, p)` for a path below the library root. -/
def relSegs (lib p : List String) : List String :=
  if lib.isPrefixOf p then p.drop lib.length else p

/-- Process one metadata file (the body of the scan loop, server.js lines
118-251): returns `none` when the path does not hold a parseable metadata
record (the caught per-item failure), else every derived value. -/
def processItem (fs : FS) (cfg : Config) (libraryPath metaPath : List String) :
    Option ItemScan :=
  match lookupFile fs metaPath with
  | some (.json data) =>
    let author := orDefault (getMetadataValue data ["authorName", "author", "authors", "bookAuthor"]) "Unknown Author"
    let bookTitle := orDefault (getMetadataValue data ["title", "bookTitle"]) "Unknown Title"
    let narrator := orDefault (getMetadataValue data ["narratorName", "narrator", "narrators"]) "Unknown Narrator"
    let seriesField := getMetadataValue data ["seriesName", "series"]
    let si := parseSeriesField seriesField
    let cleanAuthor := cleanFilename author
    let cleanTitle := cleanFilename bookTitle
    let targetPath :=
      if cfg.folderFormat = "author-series-book" && si.seriesTitle ≠ "" then
        let folderLabel := if si.bookNumber ≠ "" then si.bookNumber ++ " " ++ cleanTitle else cleanTitle
        libraryPath ++ [cleanAuthor, si.seriesTitle, folderLabel]
      else libraryPath ++ [cleanAuthor, cleanTitle]
    let bookDir := metaPath.dropLast
    let allFiles := entryNames fs bookDir
    let audioFiles :=
      sortCmp naturalCmp
        (allFiles.filter (fun f => audioExtensionsList.contains (jsToLower (extname f))))
    let numAudio := audioFiles.length
    let audioMoves := audioFiles.enum.map fun pr =>
      { oldName := pr.2,
        newName := cleanFilename
          (deriveNewName cfg cleanAuthor si.seriesTitle si.bookNumber cleanTitle numAudio pr.1 pr.2),
        oldPath := bookDir ++ [pr.2],
        type := "audio" : FileMove }
    let otherMoves := (allFiles.filter (fun f => !audioFiles.contains f)).map fun f =>
      { oldName := f, newName := f, oldPath := bookDir ++ [f], type := "other" : FileMove }
    let movePlan := audioMoves ++ otherMoves
    let hasChanges := bookDir ≠ targetPath ∨ ∃ m ∈ movePlan, m.oldName ≠ m.newName
    some { author := author, bookTitle := bookTitle, narrator := narrator,
           seriesField := seriesField, seriesInfo := si, targetPath := targetPath,
           bookDir := bookDir, movePlan := movePlan,
           hasChanges := decide hasChanges }
  | _ => none

/-- The `plannedMoves` entry built for an item with changes
(server.js lines 237-247). -/
def mkPlan (libraryPath : List String) (it : ItemScan) : PlannedMove :=
  { title := it.bookTitle, author := it.author,
    oldPath := relSegs libraryPath it.bookDir,
    newPath := relSegs libraryPath it.targetPath,
    movePlan := it.movePlan, bookDir := it.bookDir, targetDir := it.targetPath }

/-! ### Library statistics (server.js lines 105-160 and 253-264) -/

/-- The statistics accumulator; the `Set`s of the source become
insertion-ordered duplicate-free lists.  Byte-size and duration totals are
not accumulated here: no verified claim mentions them. -/
structure Stats where
  books : Nat
  authors : List String
  narrators : List String
  series : List String
  standaloneCount : Nat
deriving DecidableEq

/-- `Set.prototype.add`. -/
def setAdd (l : List String) (x : String) : List String :=
  if l.contains x then l else l ++ [x]

/-- Fold one metadata file into the running statistics and plan list. -/
def scanFold (fs : FS) (cfg : Config) (lib : List String)
    (acc : Stats × List PlannedMove) (m : List String) : Stats × List PlannedMove :=
  match processItem fs cfg lib m with
  | none => acc
  | some it =>
    let s := acc.1
    let s :=
      { books := s.books + 1,
        authors := setAdd s.authors it.author,
        narrators := if it.narrator ≠ "Unknown Narrator" then setAdd s.narrators it.narrator else s.narrators,
        series := match it.seriesInfo.seriesAdded with
          | some t => setAdd s.series t
          | none => s.series,
        standaloneCount := s.standaloneCount + (if it.seriesInfo.standalone then 1 else 0) }
    (s, if it.hasChanges then acc.2 ++ [mkPlan lib it] else acc.2)

/-- The scan loop over a list of discovered metadata files. -/
def scanCore (fs : FS) (cfg : Config) (lib : List String) (ms : List (List String)) :
    Stats × List PlannedMove :=
  ms.foldl (scanFold fs cfg lib) (⟨0, [], [], [], 0⟩, [])

/-- The whole scan operation: walk, then fold every item. -/
def scanLibrary (fs : FS) (cfg : Config) (lib : List String) (fuel : Nat) :
    Stats × List PlannedMove :=
  scanCore fs cfg lib (findMetadataFiles fs fuel lib)

/-! ### Move executor (server.js lines 272-338) -/

/-- Oracle for the fallible filesystem syscalls: whether the `mkdir` of plan
`i` succeeds, whether the `rename` of move `j` of plan `i` succeeds (when
attempted with an existing source), and whether the `rmdir` after plan `i`
succeeds.  Quantifying theorems over the oracle covers every pattern of
environment failures. -/
structure Env where
  mkdirOk : Nat → Bool
  renameOk : Nat → Nat → Bool
  rmdirOk : Nat → Bool

/-- The environment in which every syscall succeeds. -/
def allOk : Env := ⟨fun _ => true, fun _ _ => true, fun _ => true⟩

/-- Executor state: the filesystem plus the `results` accumulator. -/
structure ExecSt where
  fs : FS
  applied : Nat
  errors : Nat
  collisions : List String

/-- `fs.access(p)` succeeds: a regular file or a directory exists at `p`. -/
def pathExists (fs : FS) (p : List String) : Bool :=
  fs.files.any (fun e => e.1 = p) || fs.dirs.contains p

/-- A regular file exists at `p`. -/
def fileExists (fs : FS) (p : List String) : Bool :=
  fs.files.any (fun e => e.1 = p)

/-- `fs.rename(oldP, newP)`: the file entry keeps its content, under the new
path.  Only called on paths verified distinct with the target free. -/
def renameFile (fs : FS) (oldP newP : List String) : FS :=
  { fs with files := fs.files.map (fun e => if e.1 = oldP then (newP, e.2) else e) }

/-- `fs.mkdir(d, recursive: true)`: create `d` and every missing ancestor;
idempotent on existing directories. -/
def mkdirp (fs : FS) (d : List String) : FS :=
  let step := fun (ds : List (List String)) (k : Nat) =>
    if ds.contains (d.take (k + 1)) then ds else ds ++ [d.take (k + 1)]
  { fs with dirs := (List.range d.length).foldl step fs.dirs }

/-- One iteration of the file-move loop (server.js lines 292-314): skip when
the source already is the target, record a collision when the target path is
occupied, otherwise rename; a failing rename (oracle, or missing source)
only increments the error count. -/
def execMove (env : Env) (pIdx mIdx : Nat) (targetDir : List String)
    (st : ExecSt) (fm : FileMove) : ExecSt :=
  let newPath := targetDir ++ [fm.newName]
  if fm.oldPath = newPath then st
  else if pathExists st.fs newPath then
    { st with collisions := st.collisions ++ [fm.newName] }
  else if env.renameOk pIdx mIdx && fileExists st.fs fm.oldPath then
    { st with fs := renameFile st.fs fm.oldPath newPath }
  else { st with errors := st.errors + 1 }

/-- The file-move loop over a plan's `movePlan`. -/
def execMoves (env : Env) (pIdx : Nat) (targetDir : List String) :
    Nat → ExecSt → List FileMove → ExecSt
  | _, st, [] => st
  | mIdx, st, fm :: rest =>
    execMoves env pIdx targetDir (mIdx + 1) (execMove env pIdx mIdx targetDir st fm) rest

/-- The empty-directory cleanup (server.js lines 316-324): list the source
directory and remove it only when the listing is empty; a missing directory
or failing removal is ignored. -/
def tryRemoveDir (env : Env) (pIdx : Nat) (st : ExecSt) (d : List String) : ExecSt :=
  if st.fs.dirs.contains d then
    if (entryNames st.fs d).length = 0 then
      if env.rmdirOk pIdx then
        { st with fs := { st.fs with dirs := st.fs.dirs.filter (fun q => q ≠ d) } }
      else st
    else st
  else st

/-- Execute one plan (server.js lines 286-331): create the target directory,
run the file-move loop, attempt the cleanup, and count the plan as applied;
a failing `mkdir` only increments the error count. -/
def execPlan (env : Env) (pIdx : Nat) (st : ExecSt) (p : PlannedMove) : ExecSt :=
  if env.mkdirOk pIdx then
    let st1 : ExecSt := { st with fs := mkdirp st.fs p.targetDir }
    let st2 := execMoves env pIdx p.targetDir 0 st1 p.movePlan
    let st3 := tryRemoveDir env pIdx st2 p.bookDir
    { st3 with applied := st3.applied + 1 }
  else { st with errors := st.errors + 1 }

/-- The plan loop, carrying the index of the current plan. -/
def executeFrom (env : Env) : Nat → ExecSt → List PlannedMove → ExecSt
  | _, st, [] => st
  | pIdx, st, p :: ps => executeFrom env (pIdx + 1) (execPlan env pIdx st p) ps

/-- The whole execute operation on a fresh `results` accumulator. -/
def executePlans (env : Env) (fs : FS) (plans : List PlannedMove) : ExecSt :=
  executeFrom env 0 ⟨fs, 0, 0, []⟩ plans

/-! ### Concrete demonstration data -/

/-- A metadata record with an author and a title only. -/
def demoRec : List (String × JsVal) :=
  [("author", JsVal.str "Ann"), ("title", JsVal.str "Tome")]

/-- A one-item library whose item holds ten audio tracks. -/
def demoFS : FS :=
  { files :=
      [ (["library", "MyBook", "metadata.json"], Cont.json demoRec),
        (["library", "MyBook", "track1.mp3"], Cont.blob "b1"),
        (["library", "MyBook", "track2.mp3"], Cont.blob "b2"),
        (["library", "MyBook", "track3.mp3"], Cont.blob "b3"),
        (["library", "MyBook", "track4.mp3"], Cont.blob "b4"),
        (["library", "MyBook", "track5.mp3"], Cont.blob "b5"),
        (["library", "MyBook", "track6.mp3"], Cont.blob "b6"),
        (["library", "MyBook", "track7.mp3"], Cont.blob "b7"),
        (["library", "MyBook", "track8.mp3"], Cont.blob "b8"),
        (["library", "MyBook", "track9.mp3"], Cont.blob "b9"),
        (["library", "MyBook", "track10.mp3"], Cont.blob "b10") ],
    dirs := [["library"], ["library", "MyBook"]] }

/-- Folder format `author-book`, file format `full-details`. -/
def demoCfg : Config := ⟨"author-book", "full-details"⟩

/-- The plans of the first scan of the demo library. -/
def demoScan1 : List PlannedMove := (scanLibrary demoFS demoCfg ["library"] 4).2

/-- The state after executing every plan of the first scan with no
environment failures. -/
def demoExec : ExecSt := executePlans allOk demoFS demoScan1

/-- The plans an immediately repeated scan returns. -/
def demoScan2 : List PlannedMove := (scanLibrary demoExec.fs demoCfg ["library"] 4).2

/-- All-digit nonempty character run ("purely numeric" in the claim's
sense). -/
def pureDigits (l : List Char) : Bool :=
  !l.isEmpty && l.all Char.isDigit

/-- Series parsing as claim C4 words it: split once at the FIRST `#`, with
everything after it (trimmed) the raw book number; zero-pad the integer part
when the number is dotted-numeric (digits, a dot, digits, the fractional
part kept verbatim), zero-pad when purely numeric, keep as-is otherwise.
This definition follows the specification text and is compared against
`parseSeriesField`, the embedding of the code. -/
def seriesSpecC4 (sf : String) : SeriesInfo :=
  if sf = "" then ⟨"", "", true, none⟩
  else if sf.data.contains '#' then
    let beforeHash : List Char := sf.data.takeWhile (isNotChar '#')
    let afterHash : List Char := (sf.data.dropWhile (isNotChar '#')).tail
    let seriesTitle := cleanFilename ⟨beforeHash⟩
    let raw := jsTrim ⟨afterHash⟩
    let ipart : List Char := raw.data.takeWhile (isNotChar '.')
    let fpart : List Char := (raw.data.dropWhile (isNotChar '.')).tail
    let bookNumber :=
      if raw.data.contains '.' && pureDigits ipart && pureDigits fpart then
        padStart ⟨ipart⟩ 2 '0' ++ "." ++ ⟨fpart⟩
      else if pureDigits raw.data then padStart raw 2 '0'
      else raw
    ⟨seriesTitle, bookNumber, false, some seriesTitle⟩
  else
    let st := cleanFilename sf
    ⟨st, "", false, some st⟩

/-- Series parsing as the code actually behaves (the amended claim C4):
the raw book number is the segment between the first `#` and the next `#`
or the end of the field; a raw number containing `.` always takes the
dotted branch, which pads the segment before the first `.` and keeps only
the segment between the first and second `.`; the numeric test is
JavaScript's `Number` coercion (accepting the empty string, signs,
exponents, radix prefixes and `Infinity`). -/
def seriesAmendedC4 (sf : String) : SeriesInfo :=
  if sf = "" then ⟨"", "", true, none⟩
  else if sf.data.contains '#' then
    let beforeHash : List Char := sf.data.takeWhile (isNotChar '#')
    let between : List Char :=
      ((sf.data.dropWhile (isNotChar '#')).tail).takeWhile (isNotChar '#')
    let seriesTitle := cleanFilename ⟨beforeHash⟩
    let raw := jsTrim ⟨between⟩
    let bookNumber :=
      if raw.data.contains '.' then
        let ipart : List Char := raw.data.takeWhile (isNotChar '.')
        let fpart : List Char :=
          ((raw.data.dropWhile (isNotChar '.')).tail).takeWhile (isNotChar '.')
        padStart ⟨ipart⟩ 2 '0' ++ "." ++ ⟨fpart⟩
      else if jsIsNumeric raw then padStart raw 2 '0'
      else raw
    ⟨seriesTitle, bookNumber, false, some seriesTitle⟩
  else
    let st := cleanFilename sf
    ⟨st, "", false, some st⟩

/-- A one-item library whose series field sanitizes to an empty series
title while remaining a series item. -/
def seriesGlyphFS : FS :=
  { files :=
      [ (["lib", "B", "metadata.json"],
         Cont.json [("series", JsVal.str "?"), ("title", JsVal.str "T")]) ],
    dirs := [["lib"], ["lib", "B"]] }

/-- A two-file filesystem used to exercise the executor concretely:
`s/a.mp3` is to be moved to `t/b.mp3`, which is already occupied. -/
def collisionDemoSt : ExecSt :=
  { fs := { files := [(["t", "b.mp3"], Cont.blob "x"), (["s", "a.mp3"], Cont.blob "y")],
            dirs := [["t"], ["s"]] },
    applied := 0, errors := 0, collisions := [] }

/-- The file move whose target collides in `collisionDemoSt`. -/
def collisionDemoMove : FileMove :=
  { oldName := "a.mp3", newName := "b.mp3", oldPath := ["s", "a.mp3"], type := "audio" }

/-- A plan that moves nothing and whose source directory `s` is empty. -/
def emptyDirDemoPlan : PlannedMove :=
  { title := "T", author := "A", oldPath := ["s"], newPath := ["t"],
    movePlan := [], bookDir := ["s"], targetDir := ["t"] }

/-- A state whose directory `s` holds no entries. -/
def emptyDirDemoSt : ExecSt :=
  { fs := { files := [(["t", "b.mp3"], Cont.blob "x")], dirs := [["t"], ["s"]] },
    applied := 0, errors := 0, collisions := [] }

/-- The audio moves of an item's move plan, in their planned order (the
natural-sort order of the audio files). -/
def audioPart (it : ItemScan) : List FileMove :=
  it.movePlan.filter (fun fm => fm.type = "audio")

/-- The `full-details` base name: the non-empty parts among the sanitized
author, the trimmed series-plus-number (present only when a series exists)
and the sanitized title, joined with a dash separator. -/
def fullDetailsBase (author seriesTitle bookNumber title : String) : String :=
  joinSep " - "
    (([cleanFilename author] ++
      (if seriesTitle ≠ "" then [jsTrim (seriesTitle ++ " " ++ bookNumber)] else []) ++
      [cleanFilename title]).filter (fun p => p ≠ ""))

/-- The derived audio name for a single-track item: no numeric suffix under
any file format. -/
def deriveNoSuffix (cfg : Config) (author seriesTitle bookNumber title oldName : String) : String :=
  if cfg.fileFormat = "full-details" then
    fullDetailsBase author seriesTitle bookNumber title ++ extname oldName
  else if cfg.fileFormat = "title-only" then
    cleanFilename title ++ extname oldName
  else oldName

/-- Configuration for the specification's full-details example. -/
def brandonCfg : Config := ⟨"author-series-book", "full-details"⟩

/-- The specification's example item: a two-track book of series
`Mistborn #1`. -/
def brandonFS : FS :=
  { files :=
      [ (["lib", "V1", "metadata.json"],
         Cont.json [("author", JsVal.str "Brandon Sanderson"),
                    ("title", JsVal.str "The Final Empire"),
                    ("series", JsVal.str "Mistborn #1")]),
        (["lib", "V1", "a.mp3"], Cont.blob "t1"),
        (["lib", "V1", "b.mp3"], Cont.blob "t2") ],
    dirs := [["lib"], ["lib", "V1"]] }

/-- The scanned example item (total projection of the successful scan). -/
def brandonItem : ItemScan :=
  (processItem brandonFS brandonCfg ["lib"] ["lib", "V1", "metadata.json"]).getD
    ⟨"", "", "", "", ⟨"", "", false, none⟩, [], [], [], false⟩

/-! ## Theorems -/

/-- C1: evaluation of the code at the failing input.  The comparator built
on `naturalSortKey` does not compare digit runs as integers: the JavaScript
relational operators coerce the two key arrays to comma-joined strings, so
sorting the specification's example list yields
`["track1.mp3", "track10.mp3", "track2.mp3"]`, not the claimed
`["track1.mp3", "track2.mp3", "track10.mp3"]`; in particular the comparator
places `"track10.mp3"` strictly before `"track2.mp3"`. -/
theorem c1_natural_sort_fails_on_example :
    sortCmp naturalCmp ["track2.mp3", "track10.mp3", "track1.mp3"] =
      ["track1.mp3", "track10.mp3", "track2.mp3"] ∧
    naturalCmp "track10.mp3" "track2.mp3" = -1 := by
  constructor
  · rfl
  · rfl

/-- C5: evaluation of the code at the failing input.  Scanning the
ten-track demo library returns one plan; executing that entire plan
sequence succeeds completely (one applied plan, no errors, no collisions);
yet an immediately repeated scan with the same configuration returns a
non-empty plan sequence: the executed renaming `... - 10.mp3` sorts between
`... - 01.mp3` and `... - 02.mp3` under the string-coerced comparator, so
every track from the second on is renumbered again. -/
theorem c5_rescan_after_full_execute_not_empty :
    demoScan1.length = 1 ∧ demoExec.applied = 1 ∧ demoExec.errors = 0 ∧
    demoExec.collisions = [] ∧ demoScan2 ≠ [] := by
  refine ⟨by rfl, by rfl, by rfl, by rfl, ?_⟩
  have h : demoScan2.length = 1 := by rfl
  intro hnil
  rw [hnil] at h
  exact absurd h (by decide)

theorem splitCharAux_head (sep : Char) (l acc : List Char) :
    (splitCharAux sep l acc).head? =
      some (acc.reverse ++ l.takeWhile (isNotChar sep)) := by
  induction l generalizing acc with
  | nil => simp [splitCharAux]
  | cons c rest ih =>
    by_cases h : c = sep
    · subst h
      simp [splitCharAux, List.takeWhile_cons, isNotChar]
    · rw [splitCharAux, if_neg h, ih, List.takeWhile_cons,
        if_pos (show isNotChar sep c = true by simp [isNotChar, h])]
      simp

theorem splitCharAux_second (sep : Char) (l acc : List Char) :
    (splitCharAux sep l acc)[1]? =
      if l.contains sep then
        some (((l.dropWhile (isNotChar sep)).tail).takeWhile (isNotChar sep))
      else none := by
  induction l generalizing acc with
  | nil => simp [splitCharAux]
  | cons c rest ih =>
    by_cases h : c = sep
    · subst h
      have hh := splitCharAux_head c rest []
      rw [splitCharAux, if_pos rfl, List.getElem?_cons_succ,
        ← List.head?_eq_getElem?, hh, List.dropWhile_cons,
        if_neg (show ¬isNotChar c c = true by simp [isNotChar])]
      simp [List.contains_cons]
    · rw [splitCharAux, if_neg h, ih, List.dropWhile_cons,
        if_pos (show isNotChar sep c = true by simp [isNotChar, h]),
        List.contains_cons]
      simp [show (sep == c) = false by simp [Ne.symm h]]

theorem jsSplitChar_headD (sep : Char) (s : String) :
    (jsSplitChar sep s).headD "" = ⟨s.data.takeWhile (isNotChar sep)⟩ := by
  have h := splitCharAux_head sep s.data []
  simp [jsSplitChar, List.headD_eq_head?, List.head?_map, h]

theorem jsSplitChar_get1 (sep : Char) (s : String) (h : s.data.contains sep = true) :
    (jsSplitChar sep s)[1]?.getD "" =
      ⟨((s.data.dropWhile (isNotChar sep)).tail).takeWhile (isNotChar sep)⟩ := by
  have h2 := splitCharAux_second sep s.data []
  rw [h, if_pos rfl] at h2
  simp [jsSplitChar, List.getElem?_map, h2]

/-- C4 counterexample: the claim as stated fails on the series field
`"S #1 #2"`.  The code's raw book number is the token between the first and
second `#` (namely `"1"`, padded to `"01"`), while the claim's raw book
number is everything after the first `#` (namely `"1 #2"`, which being
neither dotted-numeric nor purely numeric it would keep as-is). -/
theorem c4_counterexample_multi_hash :
    (parseSeriesField "S #1 #2").bookNumber = "01" ∧
    (seriesSpecC4 "S #1 #2").bookNumber = "1 #2" ∧
    parseSeriesField "S #1 #2" ≠ seriesSpecC4 "S #1 #2" := by
  refine ⟨by rfl, by rfl, ?_⟩
  intro h
  have := congrArg SeriesInfo.bookNumber h
  rw [show (parseSeriesField "S #1 #2").bookNumber = "01" from rfl] at this
  rw [show (seriesSpecC4 "S #1 #2").bookNumber = "1 #2" from rfl] at this
  exact absurd this (by decide)

/-- C4 amended: for every raw series field, the code's series parsing
equals the amended description: the raw book number is the segment between
the first `#` and the next `#` (or the end), trimmed; a raw number
containing `.` is always split at its dots, the part before the first dot
zero-padded to width 2 and joined with only the part between the first and
second dot; otherwise a raw number accepted by JavaScript `Number` is
zero-padded to width 2; otherwise it is kept unchanged.  The part before
the first `#` is sanitized into the series title, a field without `#` is
wholly the (sanitized) series title, and an empty field is standalone. -/
theorem c4_amended_series_parsing (sf : String) :
    parseSeriesField sf = seriesAmendedC4 sf := by
  by_cases h0 : sf = ""
  · simp [parseSeriesField, seriesAmendedC4, h0]
  · by_cases h1 : sf.data.contains '#'
    · have hc : jsContainsChar sf '#' = true := h1
      simp only [parseSeriesField, seriesAmendedC4, ne_eq, h0, not_false_eq_true,
        if_true, ite_true, hc, h1, jsSplitChar_headD, jsSplitChar_get1 _ _ h1,
        jsContainsChar, ite_false, if_false]
      by_cases h2 :
          (jsTrim ⟨((sf.data.dropWhile (isNotChar '#')).tail).takeWhile (isNotChar '#')⟩).data.contains '.'
      · simp only [h2, ite_true, if_true, jsSplitChar_headD, jsSplitChar_get1 _ _ h2]
      · simp only [h2, ite_false, if_false, Bool.false_eq_true]
    · have hc : jsContainsChar sf '#' = false := by
        simpa [jsContainsChar] using h1
      have h1m : ¬('#' ∈ sf.data) := by simpa using h1
      simp [parseSeriesField, seriesAmendedC4, h0, hc, h1, h1m]

/-- C4 witness: the amended description instantiated at the
specification's own example, `"Mistborn #3.5"`. -/
theorem c4_amended_series_parsing_witness :
    parseSeriesField "Mistborn #3.5" = seriesAmendedC4 "Mistborn #3.5" ∧
    (parseSeriesField "Mistborn #3.5").seriesTitle = "Mistborn" ∧
    (parseSeriesField "Mistborn #3.5").bookNumber = "03.5" :=
  ⟨c4_amended_series_parsing "Mistborn #3.5", by rfl, by rfl⟩

theorem processItem_seriesInfo (fs : FS) (cfg : Config) (lib m : List String)
    (it : ItemScan) (h : processItem fs cfg lib m = some it) :
    it.seriesInfo = parseSeriesField it.seriesField := by
  unfold processItem at h
  cases hm : lookupFile fs m with
  | none => rw [hm] at h; exact absurd h (by simp)
  | some c =>
    cases c with
    | blob t => rw [hm] at h; exact absurd h (by simp)
    | json data =>
      rw [hm] at h
      simp only [Option.some.injEq] at h
      subst h
      rfl

theorem scanFold_standaloneCount (fs : FS) (cfg : Config) (lib : List String)
    (acc : Stats × List PlannedMove) (m : List String) :
    (scanFold fs cfg lib acc m).1.standaloneCount =
      acc.1.standaloneCount +
        (match processItem fs cfg lib m with
         | some it => if it.seriesInfo.standalone then 1 else 0
         | none => 0) := by
  unfold scanFold
  cases h : processItem fs cfg lib m with
  | none => simp
  | some it => simp

theorem scanCore_standaloneCount_aux (fs : FS) (cfg : Config) (lib : List String)
    (ms : List (List String)) (acc : Stats × List PlannedMove) :
    (ms.foldl (scanFold fs cfg lib) acc).1.standaloneCount =
      acc.1.standaloneCount +
        (ms.filterMap (processItem fs cfg lib)).countP
          (fun it => it.seriesInfo.standalone) := by
  induction ms generalizing acc with
  | nil => simp
  | cons m rest ih =>
    rw [List.foldl_cons, ih, scanFold_standaloneCount]
    cases h : processItem fs cfg lib m with
    | none => simp [List.filterMap_cons, h]
    | some it =>
      simp only [List.filterMap_cons, h, List.countP_cons]
      by_cases hs : it.seriesInfo.standalone = true <;> simp [hs] <;> omega

/-- C9 counterexample: the claim as stated fails on a scanned item whose
series field is `"?"`.  The item's normalized series title is empty (the
sanitizer strips the whole field), yet the library statistics count zero
standalone items for this one-book scan: standalone counting keys on the
raw series field being empty, not on the normalized title. -/
theorem c9_counterexample_empty_title_not_standalone :
    ((processItem seriesGlyphFS demoCfg ["lib"] ["lib", "B", "metadata.json"]).map
        (fun it => it.seriesInfo.seriesTitle)) = some "" ∧
    (scanCore seriesGlyphFS demoCfg ["lib"] [["lib", "B", "metadata.json"]]).1.standaloneCount = 0 ∧
    (scanCore seriesGlyphFS demoCfg ["lib"] [["lib", "B", "metadata.json"]]).1.books = 1 := by
  refine ⟨by rfl, by rfl, by rfl⟩

/-- C9 amended: an item is counted as standalone in the library statistics
exactly when its extracted raw series field is the empty string; a
standalone item's normalized seriesTitle is empty; but the converse fails,
since a non-empty series field may sanitize to an empty seriesTitle. -/
theorem c9_amended_standalone_iff_empty_field :
    (∀ sf, (parseSeriesField sf).standalone = decide (sf = "")) ∧
    (parseSeriesField "").seriesTitle = "" ∧
    (∀ fs cfg lib ms,
      (scanCore fs cfg lib ms).1.standaloneCount =
        (ms.filterMap (processItem fs cfg lib)).countP
          (fun it => it.seriesField == "")) := by
  refine ⟨?_, by rfl, ?_⟩
  · intro sf
    by_cases h : sf = ""
    · simp [parseSeriesField, h]
    · by_cases h1 : jsContainsChar sf '#' <;> simp [parseSeriesField, h, h1]
  · intro fs cfg lib ms
    unfold scanCore
    rw [scanCore_standaloneCount_aux]
    simp only [Nat.zero_add]
    apply List.countP_congr
    intro it hit
    obtain ⟨m, _, hm⟩ := List.mem_filterMap.mp hit
    have hsi := processItem_seriesInfo fs cfg lib m it hm
    rw [hsi]
    by_cases h : it.seriesField = ""
    · simp [parseSeriesField, h]
    · by_cases h1 : jsContainsChar it.seriesField '#' <;>
        simp [parseSeriesField, h, h1]

/-- C9 witness: the amended per-field characterization applied at the empty
field and at the specification's own example field. -/
theorem c9_amended_standalone_witness :
    (parseSeriesField "").standalone = decide (("" : String) = "") ∧
    (parseSeriesField "Mistborn #1").standalone = decide (("Mistborn #1" : String) = "") ∧
    (scanCore seriesGlyphFS demoCfg ["lib"] [["lib", "B", "metadata.json"]]).1.standaloneCount =
      ((([["lib", "B", "metadata.json"]] : List (List String)).filterMap
          (processItem seriesGlyphFS demoCfg ["lib"])).countP
        (fun it => it.seriesField == "")) :=
  ⟨c9_amended_standalone_iff_empty_field.1 "",
   c9_amended_standalone_iff_empty_field.1 "Mistborn #1",
   c9_amended_standalone_iff_empty_field.2.2 seriesGlyphFS demoCfg ["lib"]
     [["lib", "B", "metadata.json"]]⟩

theorem execMove_collisions_mono (env : Env) (pIdx mIdx : Nat)
    (targetDir : List String) (st : ExecSt) (fm : FileMove) (x : String)
    (h : x ∈ st.collisions) :
    x ∈ (execMove env pIdx mIdx targetDir st fm).collisions := by
  simp only [execMove]
  by_cases h1 : fm.oldPath = targetDir ++ [fm.newName]
  · rw [if_pos h1]; exact h
  · rw [if_neg h1]
    by_cases h2 : pathExists st.fs (targetDir ++ [fm.newName]) = true
    · rw [if_pos h2]; exact List.mem_append_left _ h
    · rw [if_neg h2]
      by_cases h3 : (env.renameOk pIdx mIdx && fileExists st.fs fm.oldPath) = true
      · rw [if_pos h3]; exact h
      · rw [if_neg h3]; exact h

theorem execMoves_collisions_mono (env : Env) (pIdx : Nat) (targetDir : List String)
    (ms : List FileMove) (mIdx : Nat) (st : ExecSt) (x : String)
    (h : x ∈ st.collisions) :
    x ∈ (execMoves env pIdx targetDir mIdx st ms).collisions := by
  induction ms generalizing mIdx st with
  | nil => exact h
  | cons fm rest ih =>
    exact ih (mIdx + 1) _ (execMove_collisions_mono env pIdx mIdx targetDir st fm x h)

/-- C2: when a file move's target path (the target directory joined with its
new name) differs from its source path but is already occupied, the
executor records exactly that move's new name as a collision, leaves the
whole state otherwise unchanged (in particular the filesystem, so the
source file stays in place with its content), and continues the loop with
the item's remaining file moves; the recorded name is in the loop's final
collision list. -/
theorem c2_collision_records_skips_continues (env : Env) (pIdx mIdx : Nat)
    (targetDir : List String) (st : ExecSt) (fm : FileMove) (rest : List FileMove)
    (hne : fm.oldPath ≠ targetDir ++ [fm.newName])
    (hex : pathExists st.fs (targetDir ++ [fm.newName]) = true) :
    execMove env pIdx mIdx targetDir st fm =
      { st with collisions := st.collisions ++ [fm.newName] } ∧
    execMoves env pIdx targetDir mIdx st (fm :: rest) =
      execMoves env pIdx targetDir (mIdx + 1)
        { st with collisions := st.collisions ++ [fm.newName] } rest ∧
    fm.newName ∈ (execMoves env pIdx targetDir mIdx st (fm :: rest)).collisions := by
  have hstep : execMove env pIdx mIdx targetDir st fm =
      { st with collisions := st.collisions ++ [fm.newName] } := by
    unfold execMove
    rw [if_neg hne, if_pos hex]
  refine ⟨hstep, ?_, ?_⟩
  · show execMoves env pIdx targetDir (mIdx + 1) (execMove env pIdx mIdx targetDir st fm) rest = _
    rw [hstep]
  · show fm.newName ∈
      (execMoves env pIdx targetDir (mIdx + 1) (execMove env pIdx mIdx targetDir st fm) rest).collisions
    rw [hstep]
    exact execMoves_collisions_mono env pIdx targetDir rest (mIdx + 1) _ fm.newName
      (List.mem_append_right _ (List.mem_singleton.mpr rfl))

/-- C2 witness: the collision behaviour at a concrete two-file state. -/
theorem c2_collision_witness :
    (["s", "a.mp3"] : List String) ≠ ["t", "b.mp3"] ∧
    pathExists collisionDemoSt.fs (["t"] ++ [collisionDemoMove.newName]) = true ∧
    "b.mp3" ∈ (execMoves allOk 0 ["t"] 0 collisionDemoSt [collisionDemoMove]).collisions := by
  refine ⟨by decide, by rfl, ?_⟩
  exact (c2_collision_records_skips_continues allOk 0 0 ["t"] collisionDemoSt
    collisionDemoMove [] (by decide) (by rfl)).2.2

theorem execMove_applied (env : Env) (pIdx mIdx : Nat) (targetDir : List String)
    (st : ExecSt) (fm : FileMove) :
    (execMove env pIdx mIdx targetDir st fm).applied = st.applied := by
  simp only [execMove]
  by_cases h1 : fm.oldPath = targetDir ++ [fm.newName]
  · rw [if_pos h1]
  · rw [if_neg h1]
    by_cases h2 : pathExists st.fs (targetDir ++ [fm.newName]) = true
    · rw [if_pos h2]
    · rw [if_neg h2]
      by_cases h3 : (env.renameOk pIdx mIdx && fileExists st.fs fm.oldPath) = true
      · rw [if_pos h3]
      · rw [if_neg h3]

theorem execMoves_applied (env : Env) (pIdx : Nat) (targetDir : List String)
    (ms : List FileMove) (mIdx : Nat) (st : ExecSt) :
    (execMoves env pIdx targetDir mIdx st ms).applied = st.applied := by
  induction ms generalizing mIdx st with
  | nil => rfl
  | cons fm rest ih =>
    show (execMoves env pIdx targetDir (mIdx + 1) (execMove env pIdx mIdx targetDir st fm) rest).applied = _
    rw [ih, execMove_applied]

theorem tryRemoveDir_applied (env : Env) (pIdx : Nat) (st : ExecSt) (d : List String) :
    (tryRemoveDir env pIdx st d).applied = st.applied := by
  unfold tryRemoveDir
  split
  · split
    · split
      · rfl
      · rfl
    · rfl
  · rfl

theorem execPlan_applied (env : Env) (k : Nat) (st : ExecSt) (p : PlannedMove) :
    (execPlan env k st p).applied =
      st.applied + (if env.mkdirOk k then 1 else 0) := by
  unfold execPlan
  by_cases h : env.mkdirOk k = true
  · rw [if_pos h, if_pos h]
    show (tryRemoveDir env k _ p.bookDir).applied + 1 = _
    rw [tryRemoveDir_applied, execMoves_applied]
  · rw [if_neg h, if_neg h]
    rfl

theorem executeFrom_applied (env : Env) (plans : List PlannedMove) (k : Nat) (st : ExecSt) :
    (executeFrom env k st plans).applied =
      st.applied + (List.range plans.length).countP (fun i => env.mkdirOk (k + i)) := by
  induction plans generalizing k st with
  | nil =>
    show st.applied = st.applied + (List.range (List.length [])).countP (fun i => env.mkdirOk (k + i))
    simp
  | cons p ps ih =>
    show (executeFrom env (k + 1) (execPlan env k st p) ps).applied = _
    rw [ih, execPlan_applied, List.length_cons, List.range_succ_eq_map,
      List.countP_cons, List.countP_map]
    have hf : ((fun i => env.mkdirOk (k + i)) ∘ Nat.succ) = fun i => env.mkdirOk (k + 1 + i) := by
      funext i
      have harith : k + Nat.succ i = k + 1 + i := by omega
      simp [Function.comp, harith]
    rw [hf]
    by_cases h : env.mkdirOk k = true <;> simp [h] <;> omega

/-- C10: the executor's `applied` counter counts processed plans, not
successfully moved files: over any plan list it ends at exactly the number
of plans whose target-directory creation succeeded (the file-move loop
always runs to completion since per-file failures are caught inside it);
a plan whose directory creation fails contributes exactly one error and
nothing else; a plan whose directory creation succeeds increments `applied`
by one no matter how its file moves fared; and an individually failing file
move increments exactly the error count and the loop continues, so
`errors` accumulates both per-file and whole-plan failures. -/
theorem c10_applied_counts_processed_plans :
    (∀ env k st plans,
      (executeFrom env k st plans).applied =
        st.applied + (List.range plans.length).countP (fun i => env.mkdirOk (k + i))) ∧
    (∀ env k st p, env.mkdirOk k = false →
      execPlan env k st p = { st with errors := st.errors + 1 }) ∧
    (∀ env k st p, env.mkdirOk k = true →
      (execPlan env k st p).applied = st.applied + 1) ∧
    (∀ env pIdx mIdx targetDir st fm rest,
      fm.oldPath ≠ targetDir ++ [fm.newName] →
      pathExists st.fs (targetDir ++ [fm.newName]) = false →
      (env.renameOk pIdx mIdx && fileExists st.fs fm.oldPath) = false →
      execMoves env pIdx targetDir mIdx st (fm :: rest) =
        execMoves env pIdx targetDir (mIdx + 1) { st with errors := st.errors + 1 } rest) := by
  refine ⟨fun env k st plans => executeFrom_applied env plans k st, ?_, ?_, ?_⟩
  · intro env k st p h
    unfold execPlan
    rw [if_neg (by rw [h]; exact Bool.false_ne_true)]
  · intro env k st p h
    rw [execPlan_applied, if_pos h]
  · intro env pIdx mIdx targetDir st fm rest hne hex hrn
    have hstep : execMove env pIdx mIdx targetDir st fm =
        { st with errors := st.errors + 1 } := by
      simp only [execMove]
      rw [if_neg hne, if_neg (by rw [hex]; exact Bool.false_ne_true),
        if_neg (by rw [hrn]; exact Bool.false_ne_true)]
    show execMoves env pIdx targetDir (mIdx + 1) (execMove env pIdx mIdx targetDir st fm) rest = _
    rw [hstep]

/-- C10 witness: with an environment whose `mkdir` succeeds only for the
first plan, executing two copies of the empty-move demo plan applies
exactly one plan; and a concrete failing rename increments the error
count. -/
theorem c10_applied_witness :
    (executeFrom ⟨fun i => i == 0, fun _ _ => false, fun _ => true⟩ 0
        emptyDirDemoSt [emptyDirDemoPlan, emptyDirDemoPlan]).applied =
      emptyDirDemoSt.applied +
        (List.range 2).countP (fun i => (⟨fun i => i == 0, fun _ _ => false, fun _ => true⟩ : Env).mkdirOk (0 + i)) ∧
    execMoves ⟨fun _ => true, fun _ _ => false, fun _ => true⟩ 0 ["t"] 0
        collisionDemoSt [{ collisionDemoMove with newName := "c.mp3" }] =
      execMoves ⟨fun _ => true, fun _ _ => false, fun _ => true⟩ 0 ["t"] 1
        { collisionDemoSt with errors := collisionDemoSt.errors + 1 } [] := by
  constructor
  · exact c10_applied_counts_processed_plans.1
      ⟨fun i => i == 0, fun _ _ => false, fun _ => true⟩ 0 emptyDirDemoSt
      [emptyDirDemoPlan, emptyDirDemoPlan]
  · exact c10_applied_counts_processed_plans.2.2.2
      ⟨fun _ => true, fun _ _ => false, fun _ => true⟩ 0 0 ["t"] collisionDemoSt
      { collisionDemoMove with newName := "c.mp3" } [] (by decide) (by rfl) (by rfl)

theorem renameFile_contents (fs : FS) (o n : List String) :
    (renameFile fs o n).files.map Prod.snd = fs.files.map Prod.snd := by
  unfold renameFile
  rw [List.map_map]
  apply List.map_congr_left
  intro e _
  by_cases h : e.1 = o <;> simp [h]

theorem execMove_files_contents (env : Env) (pIdx mIdx : Nat) (targetDir : List String)
    (st : ExecSt) (fm : FileMove) :
    (execMove env pIdx mIdx targetDir st fm).fs.files.map Prod.snd =
      st.fs.files.map Prod.snd := by
  simp only [execMove]
  by_cases h1 : fm.oldPath = targetDir ++ [fm.newName]
  · rw [if_pos h1]
  · rw [if_neg h1]
    by_cases h2 : pathExists st.fs (targetDir ++ [fm.newName]) = true
    · rw [if_pos h2]
    · rw [if_neg h2]
      by_cases h3 : (env.renameOk pIdx mIdx && fileExists st.fs fm.oldPath) = true
      · rw [if_pos h3]
        exact renameFile_contents st.fs fm.oldPath (targetDir ++ [fm.newName])
      · rw [if_neg h3]

theorem execMoves_files_contents (env : Env) (pIdx : Nat) (targetDir : List String)
    (ms : List FileMove) (mIdx : Nat) (st : ExecSt) :
    (execMoves env pIdx targetDir mIdx st ms).fs.files.map Prod.snd =
      st.fs.files.map Prod.snd := by
  induction ms generalizing mIdx st with
  | nil => rfl
  | cons fm rest ih =>
    show (execMoves env pIdx targetDir (mIdx + 1) (execMove env pIdx mIdx targetDir st fm) rest).fs.files.map Prod.snd = _
    rw [ih, execMove_files_contents]

theorem tryRemoveDir_fields (env : Env) (pIdx : Nat) (st : ExecSt) (d : List String) :
    (tryRemoveDir env pIdx st d).applied = st.applied ∧
    (tryRemoveDir env pIdx st d).errors = st.errors ∧
    (tryRemoveDir env pIdx st d).collisions = st.collisions ∧
    (tryRemoveDir env pIdx st d).fs.files = st.fs.files := by
  unfold tryRemoveDir
  split
  · split
    · split
      · exact ⟨rfl, rfl, rfl, rfl⟩
      · exact ⟨rfl, rfl, rfl, rfl⟩
    · exact ⟨rfl, rfl, rfl, rfl⟩
  · exact ⟨rfl, rfl, rfl, rfl⟩

theorem execPlan_files_contents (env : Env) (k : Nat) (st : ExecSt) (p : PlannedMove) :
    (execPlan env k st p).fs.files.map Prod.snd = st.fs.files.map Prod.snd := by
  unfold execPlan
  by_cases h : env.mkdirOk k = true
  · rw [if_pos h]
    show ((tryRemoveDir env k _ p.bookDir).fs.files).map Prod.snd = _
    rw [(tryRemoveDir_fields env k _ p.bookDir).2.2.2, execMoves_files_contents]
    rfl
  · rw [if_neg h]

theorem executeFrom_files_contents (env : Env) (plans : List PlannedMove)
    (k : Nat) (st : ExecSt) :
    (executeFrom env k st plans).fs.files.map Prod.snd =
      st.fs.files.map Prod.snd := by
  induction plans generalizing k st with
  | nil => rfl
  | cons p ps ih =>
    show (executeFrom env (k + 1) (execPlan env k st p) ps).fs.files.map Prod.snd = _
    rw [ih, execPlan_files_contents]

theorem foldl_addDir_mono (d : List String) (idxs : List Nat)
    (ds : List (List String)) (q : List String) (h : q ∈ ds) :
    q ∈ idxs.foldl
      (fun ds k => if ds.contains (d.take (k + 1)) then ds else ds ++ [d.take (k + 1)])
      ds := by
  induction idxs generalizing ds with
  | nil => exact h
  | cons i rest ih =>
    rw [List.foldl_cons]
    apply ih
    by_cases hc : ds.contains (d.take (i + 1)) = true
    · rw [if_pos hc]; exact h
    · rw [if_neg hc]; exact List.mem_append_left _ h

theorem mkdirp_dirs_mono (fs : FS) (d q : List String) (h : q ∈ fs.dirs) :
    q ∈ (mkdirp fs d).dirs :=
  foldl_addDir_mono d (List.range d.length) fs.dirs q h

theorem execMove_dirs (env : Env) (pIdx mIdx : Nat) (targetDir : List String)
    (st : ExecSt) (fm : FileMove) :
    (execMove env pIdx mIdx targetDir st fm).fs.dirs = st.fs.dirs := by
  simp only [execMove]
  by_cases h1 : fm.oldPath = targetDir ++ [fm.newName]
  · rw [if_pos h1]
  · rw [if_neg h1]
    by_cases h2 : pathExists st.fs (targetDir ++ [fm.newName]) = true
    · rw [if_pos h2]
    · rw [if_neg h2]
      by_cases h3 : (env.renameOk pIdx mIdx && fileExists st.fs fm.oldPath) = true
      · rw [if_pos h3]; rfl
      · rw [if_neg h3]

theorem execMoves_dirs (env : Env) (pIdx : Nat) (targetDir : List String)
    (ms : List FileMove) (mIdx : Nat) (st : ExecSt) :
    (execMoves env pIdx targetDir mIdx st ms).fs.dirs = st.fs.dirs := by
  induction ms generalizing mIdx st with
  | nil => rfl
  | cons fm rest ih =>
    show (execMoves env pIdx targetDir (mIdx + 1) (execMove env pIdx mIdx targetDir st fm) rest).fs.dirs = _
    rw [ih, execMove_dirs]

theorem execPlan_dir_removed (env : Env) (k : Nat) (st : ExecSt) (p : PlannedMove)
    (d : List String) (hmem : d ∈ st.fs.dirs)
    (hout : d ∉ (execPlan env k st p).fs.dirs) :
    d = p.bookDir ∧
    (entryNames (execMoves env k p.targetDir 0
        { st with fs := mkdirp st.fs p.targetDir } p.movePlan).fs d).length = 0 := by
  set st2 := execMoves env k p.targetDir 0 { st with fs := mkdirp st.fs p.targetDir } p.movePlan with hst2
  by_cases h : env.mkdirOk k = true
  · have hplan : (execPlan env k st p).fs.dirs = (tryRemoveDir env k st2 p.bookDir).fs.dirs := by
      unfold execPlan
      rw [if_pos h]
    rw [hplan] at hout
    have hmem2 : d ∈ st2.fs.dirs := by
      rw [hst2, execMoves_dirs]
      exact mkdirp_dirs_mono st.fs p.targetDir d hmem
    by_cases hc : st2.fs.dirs.contains p.bookDir = true
    · by_cases hl : (entryNames st2.fs p.bookDir).length = 0
      · by_cases hr : env.rmdirOk k = true
        · have ht : (tryRemoveDir env k st2 p.bookDir).fs.dirs =
              st2.fs.dirs.filter (fun q => q ≠ p.bookDir) := by
            unfold tryRemoveDir
            rw [if_pos hc, if_pos hl, if_pos hr]
          rw [ht] at hout
          have hd : d = p.bookDir := by
            by_contra hne
            exact hout (List.mem_filter.mpr ⟨hmem2, by simp [hne]⟩)
          exact ⟨hd, hd ▸ hl⟩
        · exfalso
          have ht : tryRemoveDir env k st2 p.bookDir = st2 := by
            unfold tryRemoveDir
            rw [if_pos hc, if_pos hl, if_neg hr]
          rw [ht] at hout
          exact hout hmem2
      · exfalso
        have ht : tryRemoveDir env k st2 p.bookDir = st2 := by
          unfold tryRemoveDir
          rw [if_pos hc, if_neg hl]
        rw [ht] at hout
        exact hout hmem2
    · exfalso
      have ht : tryRemoveDir env k st2 p.bookDir = st2 := by
        unfold tryRemoveDir
        rw [if_neg hc]
      rw [ht] at hout
      exact hout hmem2
  · exfalso
    have hplan : (execPlan env k st p).fs.dirs = st.fs.dirs := by
      unfold execPlan
      rw [if_neg h]
    rw [hplan] at hout
    exact hout hmem

theorem executeFrom_dir_removed (env : Env) (plans : List PlannedMove)
    (k : Nat) (st : ExecSt) (d : List String) (hmem : d ∈ st.fs.dirs)
    (hout : d ∉ (executeFrom env k st plans).fs.dirs) :
    ∃ i, ∃ hi : i < plans.length,
      d = (plans.get ⟨i, hi⟩).bookDir ∧
      (entryNames (execMoves env (k + i) (plans.get ⟨i, hi⟩).targetDir 0
          { executeFrom env k st (plans.take i) with
              fs := mkdirp (executeFrom env k st (plans.take i)).fs
                      (plans.get ⟨i, hi⟩).targetDir }
          (plans.get ⟨i, hi⟩).movePlan).fs d).length = 0 := by
  induction plans generalizing k st with
  | nil => exact absurd hmem hout
  | cons p ps ih =>
    by_cases hd : d ∈ (execPlan env k st p).fs.dirs
    · have hout2 : d ∉ (executeFrom env (k + 1) (execPlan env k st p) ps).fs.dirs := hout
      obtain ⟨i, hi, hbd, hcond⟩ := ih (k + 1) (execPlan env k st p) hd hout2
      refine ⟨i + 1, Nat.succ_lt_succ hi, ?_, ?_⟩
      · exact hbd
      · have harith : k + (i + 1) = k + 1 + i := by omega
        rw [harith]
        exact hcond
    · obtain ⟨hbd, hcond⟩ := execPlan_dir_removed env k st p d hmem hd
      refine ⟨0, Nat.succ_pos _, hbd, ?_⟩
      have harith : k + 0 = k := by omega
      rw [harith]
      exact hcond

/-- C3: across every execution, (a) the contents of the regular files are
preserved exactly (the file entries keep their contents in order, so no
regular file is ever deleted or overwritten, files are only renamed);
(b) a directory present at the start and absent at the end was removed as
some plan's source directory at a moment when the directory listing taken
right then was empty; (c) the removal attempt itself never changes the
applied or error counters, the collision list or the files, so a failed
removal never fails the operation; and (d) a plan whose directory creation
succeeds is counted as applied no matter how the cleanup fared. -/
theorem c3_files_never_deleted_dirs_removed_only_when_empty :
    (∀ env k st plans,
      (executeFrom env k st plans).fs.files.map Prod.snd = st.fs.files.map Prod.snd) ∧
    (∀ env plans k st d, d ∈ st.fs.dirs →
      d ∉ (executeFrom env k st plans).fs.dirs →
      ∃ i, ∃ hi : i < plans.length,
        d = (plans.get ⟨i, hi⟩).bookDir ∧
        (entryNames (execMoves env (k + i) (plans.get ⟨i, hi⟩).targetDir 0
            { executeFrom env k st (plans.take i) with
                fs := mkdirp (executeFrom env k st (plans.take i)).fs
                        (plans.get ⟨i, hi⟩).targetDir }
            (plans.get ⟨i, hi⟩).movePlan).fs d).length = 0) ∧
    (∀ env pIdx st d,
      (tryRemoveDir env pIdx st d).applied = st.applied ∧
      (tryRemoveDir env pIdx st d).errors = st.errors ∧
      (tryRemoveDir env pIdx st d).collisions = st.collisions ∧
      (tryRemoveDir env pIdx st d).fs.files = st.fs.files) ∧
    (∀ env k st p,
      (execPlan env k st p).applied = st.applied + (if env.mkdirOk k then 1 else 0)) :=
  ⟨fun env k st plans => executeFrom_files_contents env plans k st,
   fun env plans k st d hmem hout => executeFrom_dir_removed env plans k st d hmem hout,
   tryRemoveDir_fields,
   execPlan_applied⟩

/-- C3 witness: executing the empty-move demo plan removes its empty source
directory `s`; the theorem's characterization locates the removal at plan 0
with an empty listing, and the file contents are unchanged. -/
theorem c3_files_dirs_witness :
    (["s"] : List String) ∈ emptyDirDemoSt.fs.dirs ∧
    (["s"] : List String) ∉ (executeFrom allOk 0 emptyDirDemoSt [emptyDirDemoPlan]).fs.dirs ∧
    (∃ i, ∃ hi : i < [emptyDirDemoPlan].length,
      (["s"] : List String) = ([emptyDirDemoPlan].get ⟨i, hi⟩).bookDir ∧
      (entryNames (execMoves allOk (0 + i) ([emptyDirDemoPlan].get ⟨i, hi⟩).targetDir 0
          { executeFrom allOk 0 emptyDirDemoSt ([emptyDirDemoPlan].take i) with
              fs := mkdirp (executeFrom allOk 0 emptyDirDemoSt ([emptyDirDemoPlan].take i)).fs
                      ([emptyDirDemoPlan].get ⟨i, hi⟩).targetDir }
          ([emptyDirDemoPlan].get ⟨i, hi⟩).movePlan).fs ["s"]).length = 0) ∧
    (executeFrom allOk 0 emptyDirDemoSt [emptyDirDemoPlan]).fs.files.map Prod.snd =
      emptyDirDemoSt.fs.files.map Prod.snd := by
  refine ⟨by decide, by decide, ?_, ?_⟩
  · exact c3_files_never_deleted_dirs_removed_only_when_empty.2.1 allOk
      [emptyDirDemoPlan] 0 emptyDirDemoSt ["s"] (by decide) (by decide)
  · exact c3_files_never_deleted_dirs_removed_only_when_empty.1 allOk 0
      emptyDirDemoSt [emptyDirDemoPlan]

theorem processItem_hasChanges (fs : FS) (cfg : Config) (lib m : List String)
    (it : ItemScan) (h : processItem fs cfg lib m = some it) :
    it.hasChanges =
      decide (it.bookDir ≠ it.targetPath ∨ ∃ fm ∈ it.movePlan, fm.oldName ≠ fm.newName) := by
  unfold processItem at h
  cases hm : lookupFile fs m with
  | none => rw [hm] at h; exact absurd h (by simp)
  | some c =>
    cases c with
    | blob t => rw [hm] at h; exact absurd h (by simp)
    | json data =>
      rw [hm] at h
      simp only [Option.some.injEq] at h
      subst h
      rfl

theorem scanFold_plans_mono (fs : FS) (cfg : Config) (lib : List String)
    (ms : List (List String)) (acc : Stats × List PlannedMove) (p : PlannedMove)
    (h : p ∈ acc.2) : p ∈ (ms.foldl (scanFold fs cfg lib) acc).2 := by
  induction ms generalizing acc with
  | nil => exact h
  | cons m rest ih =>
    rw [List.foldl_cons]
    apply ih
    unfold scanFold
    cases hpi : processItem fs cfg lib m with
    | none => exact h
    | some it =>
      show p ∈ (if it.hasChanges then acc.2 ++ [mkPlan lib it] else acc.2)
      by_cases hc : it.hasChanges = true
      · rw [if_pos hc]; exact List.mem_append_left _ h
      · rw [if_neg hc]; exact h

theorem foldl_scanFold_plans_src (fs : FS) (cfg : Config) (lib : List String)
    (ms : List (List String)) (acc : Stats × List PlannedMove) (p : PlannedMove)
    (h : p ∈ (ms.foldl (scanFold fs cfg lib) acc).2) :
    p ∈ acc.2 ∨ ∃ m ∈ ms, ∃ it, processItem fs cfg lib m = some it ∧
      it.hasChanges = true ∧ p = mkPlan lib it := by
  induction ms generalizing acc with
  | nil => exact Or.inl h
  | cons m rest ih =>
    rw [List.foldl_cons] at h
    rcases ih (scanFold fs cfg lib acc m) h with h1 | ⟨m', hm', it, hit, hc, hpe⟩
    · unfold scanFold at h1
      cases hpi : processItem fs cfg lib m with
      | none =>
        rw [hpi] at h1
        exact Or.inl h1
      | some it =>
        rw [hpi] at h1
        have h2 : p ∈ (if it.hasChanges then acc.2 ++ [mkPlan lib it] else acc.2) := h1
        by_cases hc : it.hasChanges = true
        · rw [if_pos hc] at h2
          rcases List.mem_append.mp h2 with h3 | h3
          · exact Or.inl h3
          · exact Or.inr ⟨m, List.mem_cons_self m _, it, hpi, hc,
              (List.mem_singleton.mp h3)⟩
        · rw [if_neg hc] at h2
          exact Or.inl h2
    · exact Or.inr ⟨m', List.mem_cons_of_mem _ hm', it, hit, hc, hpe⟩

theorem scanFold_plans_adds (fs : FS) (cfg : Config) (lib : List String)
    (ms : List (List String)) (acc : Stats × List PlannedMove) (m : List String)
    (it : ItemScan) (hm : m ∈ ms) (hit : processItem fs cfg lib m = some it)
    (hc : it.hasChanges = true) :
    mkPlan lib it ∈ (ms.foldl (scanFold fs cfg lib) acc).2 := by
  induction ms generalizing acc with
  | nil => cases hm
  | cons m0 rest ih =>
    rw [List.foldl_cons]
    rcases List.mem_cons.mp hm with h1 | h1
    · subst h1
      apply scanFold_plans_mono
      unfold scanFold
      rw [hit]
      show mkPlan lib it ∈ (if it.hasChanges then acc.2 ++ [mkPlan lib it] else acc.2)
      rw [if_pos hc]
      exact List.mem_append_right _ (List.mem_singleton.mpr rfl)
    · exact ih _ h1

/-- C6: an item's plan appears in the scan's returned plan sequence exactly
when its source directory differs from the computed target directory or
some planned file move changes a name: (a) every reported plan has such a
difference, and (b) every successfully processed metadata file whose
derived values show such a difference contributes its plan to the returned
sequence.  No-change items never surface. -/
theorem c6_plan_reported_iff_changes :
    (∀ fs cfg lib ms p, p ∈ (scanCore fs cfg lib ms).2 →
      p.bookDir ≠ p.targetDir ∨ ∃ fm ∈ p.movePlan, fm.oldName ≠ fm.newName) ∧
    (∀ fs cfg lib ms m it, m ∈ ms → processItem fs cfg lib m = some it →
      (it.bookDir ≠ it.targetPath ∨ ∃ fm ∈ it.movePlan, fm.oldName ≠ fm.newName) →
      mkPlan lib it ∈ (scanCore fs cfg lib ms).2) := by
  constructor
  · intro fs cfg lib ms p hp
    rcases foldl_scanFold_plans_src fs cfg lib ms _ p hp with h1 | ⟨m, _, it, hit, hc, hpe⟩
    · cases h1
    · rw [processItem_hasChanges fs cfg lib m it hit] at hc
      have hprop := of_decide_eq_true hc
      subst hpe
      exact hprop
  · intro fs cfg lib ms m it hm hit hprop
    apply scanFold_plans_adds fs cfg lib ms _ m it hm hit
    rw [processItem_hasChanges fs cfg lib m it hit]
    exact decide_eq_true hprop

/-- C6 witness: the demo library's single item (whose directory differs
from its target) is reported, and its reported plan satisfies the change
condition. -/
theorem c6_plan_reported_witness :
    (∃ p, p ∈ (scanCore demoFS demoCfg ["library"]
        [["library", "MyBook", "metadata.json"]]).2 ∧
      (p.bookDir ≠ p.targetDir ∨ ∃ fm ∈ p.movePlan, fm.oldName ≠ fm.newName)) := by
  cases hscan : (scanCore demoFS demoCfg ["library"] [["library", "MyBook", "metadata.json"]]).2 with
  | nil =>
    exfalso
    have hlen : demoScan1.length = 1 := by rfl
    have hnil : demoScan1 = [] := hscan
    rw [hnil] at hlen
    exact absurd hlen (by decide)
  | cons p rest =>
    refine ⟨p, List.mem_cons_self p rest, ?_⟩
    exact c6_plan_reported_iff_changes.1 demoFS demoCfg ["library"]
      [["library", "MyBook", "metadata.json"]] p
      (by rw [hscan]; exact List.mem_cons_self p rest)

theorem processItem_audioPart (fs : FS) (cfg : Config) (lib m : List String)
    (it : ItemScan) (audioFiles : List String)
    (h : processItem fs cfg lib m = some it)
    (ha : audioFiles = sortCmp naturalCmp ((entryNames fs it.bookDir).filter
        (fun f => audioExtensionsList.contains (jsToLower (extname f))))) :
    audioPart it = audioFiles.enum.map (fun pr =>
      ({ oldName := pr.2,
         newName := cleanFilename (deriveNewName cfg (cleanFilename it.author)
           it.seriesInfo.seriesTitle it.seriesInfo.bookNumber (cleanFilename it.bookTitle)
           audioFiles.length pr.1 pr.2),
         oldPath := it.bookDir ++ [pr.2], type := "audio" } : FileMove)) := by
  subst ha
  unfold processItem at h
  cases hm : lookupFile fs m with
  | none => rw [hm] at h; exact absurd h (by simp)
  | some c =>
    cases c with
    | blob t => rw [hm] at h; exact absurd h (by simp)
    | json data =>
      rw [hm] at h
      simp only [Option.some.injEq] at h
      subst h
      unfold audioPart
      dsimp only
      rw [List.filter_append, List.filter_map, List.filter_map]
      simp [Function.comp_def]

/-- C8: the full-details audio naming.  (a) For every scanned item with
more than one audio file under file format `full-details`, the audio move
at 0-based position `i` renames its file to the sanitized join of the
non-empty parts (author, trimmed series-and-number when a series exists,
title) with a dash separator, followed by the dash-separated position
`i + 1` zero-padded to width 2 and the file's original extension.  (b) For
every scanned item with exactly one audio file, the derived name has no
numeric suffix under any file format.  (c) The specification's example
yields exactly the documented filenames. -/
theorem c8_full_details_naming :
    (∀ fs cfg lib m it i, processItem fs cfg lib m = some it →
      cfg.fileFormat = "full-details" →
      1 < (audioPart it).length →
      ∀ hi : i < (audioPart it).length,
      ((audioPart it).get ⟨i, hi⟩).newName =
        cleanFilename
          (fullDetailsBase it.author it.seriesInfo.seriesTitle it.seriesInfo.bookNumber
              it.bookTitle ++
            (" - " ++ padStart (toString (i + 1)) 2 '0') ++
            extname ((audioPart it).get ⟨i, hi⟩).oldName)) ∧
    (∀ fs cfg lib m it, processItem fs cfg lib m = some it →
      (audioPart it).length = 1 →
      ∀ fm ∈ audioPart it,
        fm.newName = cleanFilename
          (deriveNoSuffix cfg it.author it.seriesInfo.seriesTitle it.seriesInfo.bookNumber
            it.bookTitle fm.oldName)) ∧
    ((processItem brandonFS brandonCfg ["lib"] ["lib", "V1", "metadata.json"]).map
        (fun it => (audioPart it).map (fun fm => fm.newName)) =
      some ["Brandon Sanderson - Mistborn 01 - The Final Empire - 01.mp3",
            "Brandon Sanderson - Mistborn 01 - The Final Empire - 02.mp3"]) := by
  refine ⟨?_, ?_, by rfl⟩
  · intro fs cfg lib m it i h hf hn hi
    set A := sortCmp naturalCmp ((entryNames fs it.bookDir).filter
        (fun f => audioExtensionsList.contains (jsToLower (extname f)))) with hAdef
    have hA := processItem_audioPart fs cfg lib m it A h hAdef
    have hlen : (audioPart it).length = A.length := by
      rw [hA]; simp
    have hn2 : 1 < A.length := hlen ▸ hn
    rw [List.get_eq_getElem, List.getElem_of_eq hA hi, List.getElem_map, List.getElem_enum]
    simp only [deriveNewName, hf, if_true, ite_true, if_pos hn2]
    rfl
  · intro fs cfg lib m it h h1 fm hfm
    set A := sortCmp naturalCmp ((entryNames fs it.bookDir).filter
        (fun f => audioExtensionsList.contains (jsToLower (extname f)))) with hAdef
    have hA := processItem_audioPart fs cfg lib m it A h hAdef
    rw [hA] at hfm
    have hAl : A.length = 1 := by
      rw [hA] at h1
      simpa using h1
    obtain ⟨pr, _, rfl⟩ := List.mem_map.mp hfm
    show cleanFilename (deriveNewName cfg (cleanFilename it.author) it.seriesInfo.seriesTitle
        it.seriesInfo.bookNumber (cleanFilename it.bookTitle) A.length pr.1 pr.2) =
      cleanFilename (deriveNoSuffix cfg it.author it.seriesInfo.seriesTitle
        it.seriesInfo.bookNumber it.bookTitle pr.2)
    rw [hAl]
    congr 1
    by_cases hf : cfg.fileFormat = "full-details"
    · simp [deriveNewName, deriveNoSuffix, hf, fullDetailsBase, String.append_empty]
    · by_cases ht : cfg.fileFormat = "title-only"
      · simp [deriveNewName, deriveNoSuffix, hf, ht, String.append_empty]
      · simp [deriveNewName, deriveNoSuffix, hf, ht]

/-- C8 witness: the naming rule applied at position 0 of the example item. -/
theorem c8_full_details_witness :
    processItem brandonFS brandonCfg ["lib"] ["lib", "V1", "metadata.json"] = some brandonItem ∧
    brandonCfg.fileFormat = "full-details" ∧
    1 < (audioPart brandonItem).length ∧
    ∀ hi : 0 < (audioPart brandonItem).length,
      ((audioPart brandonItem).get ⟨0, hi⟩).newName =
        cleanFilename
          (fullDetailsBase brandonItem.author brandonItem.seriesInfo.seriesTitle
              brandonItem.seriesInfo.bookNumber brandonItem.bookTitle ++
            (" - " ++ padStart (toString (0 + 1)) 2 '0') ++
            extname ((audioPart brandonItem).get ⟨0, hi⟩).oldName) := by
  refine ⟨by rfl, by rfl, by decide, ?_⟩
  intro hi
  exact c8_full_details_naming.1 brandonFS brandonCfg ["lib"] ["lib", "V1", "metadata.json"]
    brandonItem 0 (by rfl) (by rfl) (by decide) hi

theorem foldl_filter_ne (cs : List Char) (l : List Char) :
    cs.foldl (fun acc c => acc.filter (fun x => x ≠ c)) l =
      l.filter (fun x => !cs.contains x) := by
  induction cs generalizing l with
  | nil => simp
  | cons c cs ih =>
    rw [List.foldl_cons, ih, List.filter_filter]
    apply List.filter_congr
    intro a _
    by_cases h : a = c <;> simp [h]

theorem removeInvalid_eq_filter (l : List Char) :
    removeInvalid l = l.filter (fun x => !invalidChars.contains x) :=
  foldl_filter_ne invalidChars l

theorem mem_collapseWsAux (l : List Char) :
    ∀ b c, c ∈ collapseWsAux b l → c = ' ' ∨ (c ∈ l ∧ isJsWs c = false) := by
  induction l with
  | nil => intro b c h; cases h
  | cons a rest ih =>
    intro b c h
    unfold collapseWsAux at h
    by_cases ha : isJsWs a
    · rw [if_pos ha] at h
      by_cases hb : b = true
      · rw [if_pos hb] at h
        rcases ih true c h with h1 | ⟨h2, h3⟩
        · exact Or.inl h1
        · exact Or.inr ⟨List.mem_cons_of_mem a h2, h3⟩
      · rw [if_neg hb] at h
        rcases List.mem_cons.mp h with h1 | h1
        · exact Or.inl h1
        · rcases ih true c h1 with h2 | ⟨h3, h4⟩
          · exact Or.inl h2
          · exact Or.inr ⟨List.mem_cons_of_mem a h3, h4⟩
    · rw [if_neg ha] at h
      rcases List.mem_cons.mp h with h1 | h1
      · subst h1
        exact Or.inr ⟨List.mem_cons_self c rest, by simpa using ha⟩
      · rcases ih false c h1 with h2 | ⟨h3, h4⟩
        · exact Or.inl h2
        · exact Or.inr ⟨List.mem_cons_of_mem a h3, h4⟩

theorem collapseWsAux_head_true (l : List Char) :
    (collapseWsAux true l).head?.all (fun c => !isJsWs c) = true := by
  induction l with
  | nil => rfl
  | cons a rest ih =>
    unfold collapseWsAux
    by_cases ha : isJsWs a
    · rw [if_pos ha, if_pos rfl]
      exact ih
    · rw [if_neg ha]
      simp [ha]

theorem noAdjWs_cons (a : Char) (l : List Char) :
    noAdjWs (a :: l) = true ↔
      (l.head?.all (fun b => !(isJsWs a && isJsWs b)) = true ∧ noAdjWs l = true) := by
  cases l with
  | nil => simp [noAdjWs]
  | cons b rest =>
    show (!(isJsWs a && isJsWs b) && noAdjWs (b :: rest)) = true ↔ _
    simp [Bool.and_eq_true]

theorem collapseWsAux_noAdj (l : List Char) :
    ∀ b, noAdjWs (collapseWsAux b l) = true := by
  induction l with
  | nil => intro b; rfl
  | cons a rest ih =>
    intro b
    unfold collapseWsAux
    by_cases ha : isJsWs a
    · rw [if_pos ha]
      by_cases hb : b = true
      · rw [if_pos hb]
        exact ih true
      · rw [if_neg hb]
        rw [noAdjWs_cons]
        refine ⟨?_, ih true⟩
        have hhd := collapseWsAux_head_true rest
        cases hX : (collapseWsAux true rest).head? with
        | none => simp [hX]
        | some x =>
          rw [hX] at hhd
          simp only [Option.all_some] at hhd
          simp [hX, hhd]
    · rw [if_neg ha]
      rw [noAdjWs_cons]
      refine ⟨?_, ih false⟩
      cases hX : (collapseWsAux false rest).head? with
      | none => simp [hX]
      | some x => simp [hX, ha]

theorem noAdjWs_tail (a : Char) (l : List Char) (h : noAdjWs (a :: l) = true) :
    noAdjWs l = true :=
  ((noAdjWs_cons a l).mp h).2

theorem noAdjWs_dropWhile (p : Char → Bool) (l : List Char) (h : noAdjWs l = true) :
    noAdjWs (l.dropWhile p) = true := by
  induction l with
  | nil => exact h
  | cons a rest ih =>
    by_cases hp : p a
    · rw [List.dropWhile_cons_of_pos hp]
      exact ih (noAdjWs_tail a rest h)
    · rw [List.dropWhile_cons_of_neg hp]
      exact h

theorem noAdjWs_iff_chain (l : List Char) :
    noAdjWs l = true ↔
      List.Chain' (fun a b => ¬(isJsWs a = true ∧ isJsWs b = true)) l := by
  induction l with
  | nil => simp [noAdjWs]
  | cons a rest ih =>
    rw [List.chain'_cons', ← ih, noAdjWs_cons]
    cases hX : rest.head? with
    | none => simp [hX]
    | some x =>
      simp only [hX, Option.all_some]
      constructor
      · rintro ⟨h1, h2⟩
        refine ⟨?_, h2⟩
        intro b hb
        rw [Option.mem_def] at hb
        injection hb with hb
        subst hb
        rintro ⟨hca, hcx⟩
        rw [hca, hcx] at h1
        simp at h1
      · rintro ⟨h1, h2⟩
        refine ⟨?_, h2⟩
        have h3 := h1 x (by rw [Option.mem_def])
        by_cases hwa : isJsWs a
        · by_cases hwx : isJsWs x
          · exact absurd ⟨hwa, hwx⟩ h3
          · simp [hwa, hwx]
        · simp [hwa]

theorem noAdjWs_reverse (l : List Char) (h : noAdjWs l = true) :
    noAdjWs l.reverse = true := by
  rw [noAdjWs_iff_chain] at h ⊢
  rw [List.chain'_reverse]
  exact List.Chain'.imp (fun a b hab hc => hab ⟨hc.2, hc.1⟩) h

theorem dropWhile_head_not (p : Char → Bool) (l : List Char) :
    ((l.dropWhile p).head?.all (fun c => !p c)) = true := by
  induction l with
  | nil => rfl
  | cons a rest ih =>
    by_cases hp : p a
    · rw [List.dropWhile_cons_of_pos hp]
      exact ih
    · rw [List.dropWhile_cons_of_neg hp]
      simp [hp]

theorem dropWhile_eq_self_of_head (p : Char → Bool) (l : List Char)
    (h : l.head?.all (fun c => !p c) = true) : l.dropWhile p = l := by
  cases l with
  | nil => rfl
  | cons a rest =>
    simp only [List.head?_cons, Option.all_some] at h
    rw [List.dropWhile_cons_of_neg (by simpa using h)]

theorem dropWhile_idem (p : Char → Bool) (l : List Char) :
    (l.dropWhile p).dropWhile p = l.dropWhile p :=
  dropWhile_eq_self_of_head p _ (dropWhile_head_not p l)

theorem collapseWsAux_true_eq_false (l : List Char)
    (h : l.head?.all (fun c => !isJsWs c) = true) :
    collapseWsAux true l = collapseWsAux false l := by
  cases l with
  | nil => rfl
  | cons a rest =>
    simp only [List.head?_cons, Option.all_some] at h
    have ha : isJsWs a = false := by simpa using h
    unfold collapseWsAux
    rw [if_neg (by simp [ha]), if_neg (by simp [ha])]

theorem collapseWs_eq_self (l : List Char)
    (hsp : ∀ c ∈ l, isJsWs c = true → c = ' ')
    (hna : noAdjWs l = true) : collapseWsAux false l = l := by
  induction l with
  | nil => rfl
  | cons a rest ih =>
    unfold collapseWsAux
    by_cases ha : isJsWs a
    · rw [if_pos ha, if_neg Bool.false_ne_true]
      have ha' : a = ' ' := hsp a (List.mem_cons_self a rest) ha
      have hhead : rest.head?.all (fun c => !isJsWs c) = true := by
        rcases (noAdjWs_cons a rest).mp hna with ⟨h1, _⟩
        cases hX : rest.head? with
        | none => rfl
        | some x =>
          rw [hX] at h1
          simp only [Option.all_some] at h1 ⊢
          rw [ha] at h1
          simpa using h1
      rw [collapseWsAux_true_eq_false rest hhead,
        ih (fun c hc hw => hsp c (List.mem_cons_of_mem a hc) hw) (noAdjWs_tail a rest hna),
        ha']
    · rw [if_neg ha,
        ih (fun c hc hw => hsp c (List.mem_cons_of_mem a hc) hw) (noAdjWs_tail a rest hna)]

theorem jsTrimList_no_lead (l : List Char) :
    (jsTrimList l).dropWhile isJsWs = jsTrimList l := by
  unfold jsTrimList
  apply dropWhile_eq_self_of_head
  have hpre : ((l.dropWhile isJsWs).reverse.dropWhile isJsWs).reverse <+: l.dropWhile isJsWs := by
    have hs : (l.dropWhile isJsWs).reverse.dropWhile isJsWs <:+ (l.dropWhile isJsWs).reverse :=
      List.dropWhile_suffix _
    have hp := List.reverse_prefix.mpr hs
    rwa [List.reverse_reverse] at hp
  obtain ⟨t, ht⟩ := hpre
  cases hX : ((l.dropWhile isJsWs).reverse.dropWhile isJsWs).reverse with
  | nil => rfl
  | cons c rest =>
    rw [hX] at ht
    have hz1head := dropWhile_head_not isJsWs l
    rw [← ht] at hz1head
    simp only [List.cons_append, List.head?_cons, Option.all_some] at hz1head
    simpa using hz1head

theorem jsTrimList_no_trail (l : List Char) :
    (jsTrimList l).reverse.dropWhile isJsWs = (jsTrimList l).reverse := by
  unfold jsTrimList
  rw [List.reverse_reverse]
  exact dropWhile_idem _ _

theorem mem_jsTrimList (l : List Char) (c : Char) (h : c ∈ jsTrimList l) : c ∈ l := by
  unfold jsTrimList at h
  rw [List.mem_reverse] at h
  have h2 := (List.dropWhile_sublist (l := (l.dropWhile isJsWs).reverse) isJsWs).subset h
  rw [List.mem_reverse] at h2
  exact (List.dropWhile_sublist isJsWs).subset h2

theorem mem_cleanFilename (x : String) (c : Char) (h : c ∈ (cleanFilename x).data) :
    c = ' ' ∨ (c ∈ (removeInvalid x.data) ∧ isJsWs c = false) := by
  unfold cleanFilename at h
  by_cases hx : x = ""
  · rw [if_pos hx] at h
    cases h
  · rw [if_neg hx] at h
    have h2 : c ∈ collapseWs (removeInvalid x.data) := mem_jsTrimList _ c h
    exact mem_collapseWsAux (removeInvalid x.data) false c h2

theorem cleanFilename_ne (s : String) (h : s ≠ "") :
    cleanFilename s = ⟨jsTrimList (collapseWs (removeInvalid s.data))⟩ := by
  unfold cleanFilename
  rw [if_neg h]

theorem cleanFilename_no_invalid (x : String) :
    ∀ c ∈ (cleanFilename x).data, c ∉ invalidChars := by
  intro c hc
  rcases mem_cleanFilename x c hc with h1 | ⟨h2, _⟩
  · subst h1; decide
  · rw [removeInvalid_eq_filter] at h2
    have h3 := (List.mem_filter.mp h2).2
    simpa using h3

theorem cleanFilename_ws_space (x : String) :
    ∀ c ∈ (cleanFilename x).data, isJsWs c = true → c = ' ' := by
  intro c hc hw
  rcases mem_cleanFilename x c hc with h1 | ⟨_, h3⟩
  · exact h1
  · rw [hw] at h3
    simp at h3

theorem cleanFilename_noAdj (x : String) : noAdjWs (cleanFilename x).data = true := by
  by_cases hx : x = ""
  · rw [hx]; rfl
  · rw [cleanFilename_ne x hx]
    show noAdjWs (jsTrimList (collapseWs (removeInvalid x.data))) = true
    unfold jsTrimList
    have h0 : noAdjWs (collapseWs (removeInvalid x.data)) = true :=
      collapseWsAux_noAdj (removeInvalid x.data) false
    exact noAdjWs_reverse _ (noAdjWs_dropWhile isJsWs _ (noAdjWs_reverse _
      (noAdjWs_dropWhile isJsWs _ h0)))

theorem cleanFilename_no_lead (x : String) :
    (cleanFilename x).data.dropWhile isJsWs = (cleanFilename x).data := by
  by_cases hx : x = ""
  · rw [hx]; rfl
  · rw [cleanFilename_ne x hx]
    exact jsTrimList_no_lead _

theorem cleanFilename_no_trail (x : String) :
    (cleanFilename x).data.reverse.dropWhile isJsWs = (cleanFilename x).data.reverse := by
  by_cases hx : x = ""
  · rw [hx]; rfl
  · rw [cleanFilename_ne x hx]
    exact jsTrimList_no_trail _

theorem cleanFilename_idem (x : String) :
    cleanFilename (cleanFilename x) = cleanFilename x := by
  by_cases hy : cleanFilename x = ""
  · rw [hy]
    rfl
  · rw [cleanFilename_ne _ hy]
    have h1 : removeInvalid (cleanFilename x).data = (cleanFilename x).data := by
      rw [removeInvalid_eq_filter]
      apply List.filter_eq_self.mpr
      intro c hc
      have h2 := cleanFilename_no_invalid x c hc
      simpa using h2
    rw [h1]
    have h2 : collapseWs (cleanFilename x).data = (cleanFilename x).data :=
      collapseWs_eq_self _ (cleanFilename_ws_space x) (cleanFilename_noAdj x)
    rw [h2]
    have h3 : jsTrimList (cleanFilename x).data = (cleanFilename x).data := by
      unfold jsTrimList
      rw [cleanFilename_no_lead x, cleanFilename_no_trail x, List.reverse_reverse]
    rw [h3]

/-- C7: the sanitizer's contract.  For every string, the sanitized result
contains no character from the invalid set `< > : " / \ | ? *`; every
whitespace character left in it is a plain space and no two whitespace
characters are adjacent (whitespace runs collapsed to one space); it has no
leading and no trailing whitespace; and the sanitizer is idempotent. -/
theorem c7_sanitizer_contract (x : String) :
    (∀ c ∈ (cleanFilename x).data, c ∉ invalidChars) ∧
    (∀ c ∈ (cleanFilename x).data, isJsWs c = true → c = ' ') ∧
    noAdjWs (cleanFilename x).data = true ∧
    (cleanFilename x).data.dropWhile isJsWs = (cleanFilename x).data ∧
    (cleanFilename x).data.reverse.dropWhile isJsWs = (cleanFilename x).data.reverse ∧
    cleanFilename (cleanFilename x) = cleanFilename x :=
  ⟨cleanFilename_no_invalid x, cleanFilename_ws_space x, cleanFilename_noAdj x,
   cleanFilename_no_lead x, cleanFilename_no_trail x, cleanFilename_idem x⟩

/-- C7 witness: the contract instantiated at a string exercising invalid
characters and whitespace runs. -/
theorem c7_sanitizer_witness :
    cleanFilename (cleanFilename " a<b : c?.mp3 ") = cleanFilename " a<b : c?.mp3 " ∧
    'a' ∉ invalidChars :=
  ⟨(c7_sanitizer_contract " a<b : c?.mp3 ").2.2.2.2.2,
   (c7_sanitizer_contract " a<b : c?.mp3 ").1 'a' (by decide)⟩

end TidyLib
